import Mathlib

/-!
# libcfg: the configuration parser and its store

A shallow embedding of `src/src/cfg.c`.

* A byte is a natural number (the value of a C `char`; only equality with
  character constants is ever tested, so signedness plays no part).
* The input buffer `const char* str` is a memory `Nat → Nat` indexed from the
  pointer; `len` is the `off_t` length handed to `cfg_parse`, taken
  non-negative.  Bytes at index `len` and beyond exist in the model, as they do
  behind a C pointer; which values they hold is left arbitrary.
* The cursors are `size_t` values that never exceed `len + 1`, so they are
  natural numbers without wrap-around.
* Owned C strings (`char*` results of `strdup`/`strndup`) are lists of bytes
  without the terminating NUL.
* `malloc`/`realloc` are taken to succeed, as the code does (`todo: handle
  error case`).
-/

namespace Cfg

/-! ## Data model -/

/-- Modelled from the spec: `include/cfg.h` is not among the sources.  The
enumerators are the four that `cfg_dump` switches over. -/
inductive cfg_setting_type where
  | cfg_setting_type_string
  | cfg_setting_type_integer
  | cfg_setting_type_boolean
  | cfg_setting_type_decimal
  deriving DecidableEq, Repr

open cfg_setting_type

/-- Modelled from the spec: `include/cfg.h` is not among the sources.  One
`cfg_setting_t`, with the members that `cfg.c` reads or writes: `type`,
`identifier`, and the payload members `string`, `integer`, `boolean`,
`decimal`.  The `decimal` payload is kept as the text `printf` renders for it
(floating point is not modelled).  The payload members that
`cfg_add_string_setting*` never writes are given fixed values here. -/
structure cfg_setting_t where
  type : cfg_setting_type
  identifier : List Nat
  string : List Nat
  integer : Int := 0
  boolean : Bool := false
  decimal : List Nat := []
  deriving DecidableEq, Repr

/-- Modelled from the spec: `include/cfg.h` is not among the sources.  The
store `cfg_t`: the array `settings`; its member `settings_len` is the number of
cells of that array. -/
structure cfg_t where
  settings : List cfg_setting_t
  deriving DecidableEq, Repr

/-- The member `cfg->settings_len`. -/
def cfg_t.settings_len (cfg : cfg_t) : Nat := cfg.settings.length

/-! ## Store operations -/

/-- `cfg_add_setting` (cfg.c:60-71): grow the array by one cell, store the
setting in the last cell, return 0. -/
def cfg_add_setting (cfg : cfg_t) (setting : cfg_setting_t) : Int × cfg_t :=
  if cfg.settings_len = 0 then
    (0, { settings := [setting] })
  else
    (0, { settings := cfg.settings ++ [setting] })

/-- `strndup(s + pos, n)`: copy bytes from `pos` on, stopping after `n` bytes or
before the first NUL byte, whichever comes first. -/
def strndup (s : Nat → Nat) : Nat → Nat → List Nat
  | _, 0 => []
  | pos, n + 1 => if s pos = 0 then [] else s pos :: strndup s (pos + 1) n

/-- `strdup(s)` of a NUL-terminated text given as its bytes: the copy stops
before the first NUL. -/
def strdup (s : List Nat) : List Nat := s.takeWhile (fun b => b != 0)

/-- `cfg_add_string_setting` (cfg.c:73-88). -/
def cfg_add_string_setting (cfg : cfg_t) (string identifier : List Nat) : Int × cfg_t :=
  let setting : cfg_setting_t :=
    { type := cfg_setting_type_string
      identifier := strdup identifier
      string := strdup string }
  let r := cfg_add_setting cfg setting
  if r.1 ≠ 0 then (1, cfg) else (0, r.2)

/-- `cfg_add_string_setting_with_length` (cfg.c:90-105); `str` and `id` are
passed as the buffer together with the offsets `str_pos` and `id_pos`
(the C call sites pass `&str[value_pos]` and `&str[id_pos]`). -/
def cfg_add_string_setting_with_length (cfg : cfg_t) (buf : Nat → Nat)
    (str_pos str_len id_pos id_len : Nat) : Int × cfg_t :=
  let setting : cfg_setting_t :=
    { type := cfg_setting_type_string
      identifier := strndup buf id_pos id_len
      string := strndup buf str_pos str_len }
  let r := cfg_add_setting cfg setting
  if r.1 ≠ 0 then (1, cfg) else (0, r.2)

/-- What `printf("%lld", i)` writes: the decimal digits of `i`, after a `-`
when `i` is negative. -/
def fmt_lld (i : Int) : List Nat :=
  if i < 0 then 45 :: (Nat.toDigits 10 i.natAbs).map Char.toNat
  else (Nat.toDigits 10 i.natAbs).map Char.toNat

/-- What one pass of the loop of `cfg_dump` (cfg.c:34-56) writes for the
Setting `current`: the `switch (current->type)` with its four `printf` calls. -/
def cfg_dump_setting (current : cfg_setting_t) : List Nat :=
  match current.type with
  | cfg_setting_type_string => current.identifier ++ 61 :: current.string ++ [10]
  | cfg_setting_type_integer => current.identifier ++ 61 :: fmt_lld current.integer ++ [10]
  | cfg_setting_type_boolean =>
    current.identifier ++ 61 ::
      (if current.boolean then [116, 114, 117, 101] else [102, 97, 108, 115, 101]) ++ [10]
  | cfg_setting_type_decimal => current.identifier ++ 61 :: current.decimal ++ [10]

/-- The loop `for (i = 0; i < cfg->settings_len; ++i)` of `cfg_dump`, over the
cells of the array in index order. -/
def cfg_dump_loop : List cfg_setting_t → List Nat
  | [] => []
  | current :: rest => cfg_dump_setting current ++ cfg_dump_loop rest

/-- `cfg_dump` (cfg.c:30-58): the bytes written to standard output. -/
def cfg_dump (cfg : cfg_t) : List Nat := cfg_dump_loop cfg.settings

/-! ## The parser -/

/-- The shape shared by the three inner loops of `cfg_parse`,
`while (cond(str[c2]) && c2 < len) c2 += 1;`.  The first argument counts the
bytes left before `len`; it is `len - c2` at every call, so it reaches zero
exactly when `c2 < len` fails. -/
def scan (cond : Nat → Bool) (str : Nat → Nat) (len : Nat) : Nat → Nat → Nat
  | 0, c2 => c2
  | left + 1, c2 =>
    if cond (str c2) && decide (c2 < len) then scan cond str len left (c2 + 1) else c2

/-- Line 134: `while (str[c2] != '\n' && c2 < len) c2 += 1;`. -/
def scan_comment (str : Nat → Nat) (len c2 : Nat) : Nat :=
  scan (fun b => b != 10) str len (len - c2) c2

/-- Line 143: `while (str[c2] != '=' && c2 < len) c2 += 1;`. -/
def scan_identifier (str : Nat → Nat) (len c2 : Nat) : Nat :=
  scan (fun b => b != 61) str len (len - c2) c2

/-- Line 157: `while (str[c2] != '\n' && str[c2] != '#' && c2 < len) c2 += 1;`. -/
def scan_value (str : Nat → Nat) (len c2 : Nat) : Nat :=
  scan (fun b => b != 10 && b != 35) str len (len - c2) c2

/-- What one pass through the body of the main loop does: return from
`cfg_parse` with a status, or reach the end of the body with new cursors. -/
inductive Step where
  | ret (status : Int) (cfg : cfg_t)
  | next (c1 c2 : Nat) (cfg : cfg_t)
  deriving DecidableEq, Repr

/-- The inner `switch (str[value_pos])` of lines 163-199 together with
`c1 = c2; break;` of lines 201-202. -/
def classify_value (cfg : cfg_t) (str : Nat → Nat)
    (id_pos id_len value_pos value_len c2 : Nat) : Step :=
  let v := str value_pos
  if v = 45 ∨ v = 48 ∨ v = 49 ∨ v = 50 ∨ v = 51 ∨ v = 52 ∨ v = 53 ∨ v = 54 ∨ v = 55
      ∨ v = 56 ∨ v = 57 then
    -- the value is a number
    let r := cfg_add_string_setting_with_length cfg str value_pos value_len id_pos id_len
    if r.1 ≠ 0 then Step.ret 1 r.2 else Step.next c2 c2 r.2
  else if v = 34 then
    -- the value is a string
    let r := cfg_add_string_setting_with_length cfg str value_pos value_len id_pos id_len
    if r.1 ≠ 0 then Step.ret 1 r.2 else Step.next c2 c2 r.2
  else if v = 102 ∨ v = 116 then
    let r := cfg_add_string_setting_with_length cfg str value_pos value_len id_pos id_len
    if r.1 ≠ 0 then Step.ret 1 r.2 else Step.next c2 c2 r.2
  else
    Step.ret 1 cfg

/-- The body of the `while (c2 < len)` loop, lines 116-204: the
`switch (str[c1])`.  The whitespace case falls through into the newline case. -/
def cfg_parse_body (str : Nat → Nat) (len : Nat) (c1 c2 : Nat) (cfg : cfg_t) : Step :=
  let b := str c1
  if b = 13 ∨ b = 9 ∨ b = 32 then
    let c2 := c2 + 1
    -- fall through into case '\n'
    let c2 := c2 + 1
    if c2 ≥ len then Step.ret 1 cfg else Step.next c2 c2 cfg
  else if b = 10 then
    let c2 := c2 + 1
    if c2 ≥ len then Step.ret 1 cfg else Step.next c2 c2 cfg
  else if b = 35 then
    let c2 := scan_comment str len c2
    Step.next c2 c2 cfg
  else
    let c2 := scan_identifier str len c2
    let id_pos := c1
    let id_len := c2 - c1
    let c2 := c2 + 1
    if c2 ≥ len then Step.ret 1 cfg
    else
      let c1 := c2
      let c2 := scan_value str len c2
      let value_pos := c1
      let value_len := c2 - c1
      classify_value cfg str id_pos id_len value_pos value_len c2

/-- The main loop `while (c2 < len) { ... } return 0;` of lines 115-207, run
for at most `fuel` tests of the loop condition; `none` when the fuel is used
up before the function returns. -/
def cfg_parse_loop (str : Nat → Nat) (len : Nat) : Nat → Nat → Nat → cfg_t → Option (Int × cfg_t)
  | 0, _, _, _ => none
  | fuel + 1, c1, c2, cfg =>
    if c2 < len then
      match cfg_parse_body str len c1 c2 cfg with
      | Step.ret status cfg' => some (status, cfg')
      | Step.next c1' c2' cfg' => cfg_parse_loop str len fuel c1' c2' cfg'
    else
      some (0, cfg)

/-- `cfg_parse` (cfg.c:107-208): both cursors start at 0.  The result is the
returned status and the store as the call leaves it.  `len + 1` tests of the
loop condition are always enough (`run_extends`, `loop_fuel`). -/
def cfg_parse (cfg : cfg_t) (str : Nat → Nat) (len : Nat) : Option (Int × cfg_t) :=
  cfg_parse_loop str len (len + 1) 0 0 cfg

/-- The loop-head states `(c1, c2, cfg)` that the main loop passes through,
in order: one entry for every time the loop condition `c2 < len` holds.  Same
recursion as `cfg_parse_loop`. -/
def cfg_parse_trace_loop (str : Nat → Nat) (len : Nat) :
    Nat → Nat → Nat → cfg_t → List (Nat × Nat × cfg_t)
  | 0, _, _, _ => []
  | fuel + 1, c1, c2, cfg =>
    if c2 < len then
      (c1, c2, cfg) ::
        match cfg_parse_body str len c1 c2 cfg with
        | Step.ret _ _ => []
        | Step.next c1' c2' cfg' => cfg_parse_trace_loop str len fuel c1' c2' cfg'
    else
      []

/-- The loop-head states of a call `cfg_parse(cfg, str, len)`. -/
def cfg_parse_trace (cfg : cfg_t) (str : Nat → Nat) (len : Nat) : List (Nat × Nat × cfg_t) :=
  cfg_parse_trace_loop str len (len + 1) 0 0 cfg

/-- The main loop entered with both cursors at `c`, with the fuel that
`cfg_parse` has left when it gets there. -/
def run (str : Nat → Nat) (len : Nat) (c : Nat) (cfg : cfg_t) : Option (Int × cfg_t) :=
  cfg_parse_loop str len (len + 1 - c) c c cfg

/-! ## Buffers given by their bytes -/

/-- The memory `str` holds the bytes `l` from index `c` on. -/
def holds (str : Nat → Nat) : Nat → List Nat → Prop
  | _, [] => True
  | c, x :: xs => str c = x ∧ holds str (c + 1) xs

/-- A memory whose first bytes are `l`, followed by NUL bytes. -/
def ofBytes (l : List Nat) : Nat → Nat := fun i => l.getD i 0

/-- The bytes of an ASCII text. -/
def ascii (s : String) : List Nat := s.toList.map Char.toNat

/-! ## Vocabulary of the claims -/

/-- Space, tab or carriage return: the bytes of the first `case` group of
`switch (str[c1])`. -/
def is_blank (b : Nat) : Prop := b = 13 ∨ b = 9 ∨ b = 32

instance (b : Nat) : Decidable (is_blank b) := by unfold is_blank; infer_instance

/-- A byte at which the main switch takes the `default` branch, so that an
identifier starts there: not space, tab, CR, LF or `#`. -/
def starts_identifier (b : Nat) : Prop := ¬ is_blank b ∧ b ≠ 10 ∧ b ≠ 35

instance (b : Nat) : Decidable (starts_identifier b) := by
  unfold starts_identifier; infer_instance

/-- A byte that the inner switch accepts as the first byte of a value: `-`, a
decimal digit, `"`, `f` or `t`. -/
def starts_value (v : Nat) : Prop := v = 45 ∨ (48 ≤ v ∧ v ≤ 57) ∨ v = 34 ∨ v = 102 ∨ v = 116

instance (v : Nat) : Decidable (starts_value v) := by unfold starts_value; infer_instance

/-- The Setting that one `identifier=value` pair is stored as. -/
def string_setting (identifier value : List Nat) : cfg_setting_t :=
  { type := cfg_setting_type_string, identifier := identifier, string := value }

/-- The list `l` is non-empty and its first byte satisfies `P`. -/
def begins_with (P : Nat → Prop) : List Nat → Prop
  | [] => False
  | b :: _ => P b

instance (P : Nat → Prop) [DecidablePred P] (l : List Nat) : Decidable (begins_with P l) := by
  cases l <;> unfold begins_with <;> infer_instance

/-- A line of a configuration text, as the claims describe them: a comment
line (`#` followed by `body`) or an `identifier=value` line. -/
inductive Line where
  | comment (body : List Nat)
  | setting (identifier value : List Nat)
  deriving DecidableEq, Repr

/-- The bytes of a line, without a line terminator. -/
def Line.bytes : Line → List Nat
  | Line.comment body => 35 :: body
  | Line.setting identifier value => identifier ++ 61 :: value

/-- Well-formed lines: a comment holds no LF; an identifier is non-empty,
holds no `=` and starts with none of space, tab, CR, LF, `#`; a value starts
with `-`, a digit, `"`, `f` or `t` and holds no LF and no `#`. -/
def Line.well_formed : Line → Prop
  | Line.comment body => 10 ∉ body
  | Line.setting identifier value =>
    begins_with starts_identifier identifier ∧ 61 ∉ identifier ∧
    begins_with starts_value value ∧ 10 ∉ value ∧ 35 ∉ value

instance (l : Line) : Decidable l.well_formed := by
  cases l <;> unfold Line.well_formed <;> infer_instance

/-- Neither the identifier nor the value of the line holds a NUL byte. -/
def Line.nul_free : Line → Prop
  | Line.comment _ => True
  | Line.setting identifier value => 0 ∉ identifier ∧ 0 ∉ value

instance (l : Line) : Decidable l.nul_free := by
  cases l <;> unfold Line.nul_free <;> infer_instance

/-- Lines joined by LF, no LF after the last one. -/
def join_lines : List Line → List Nat
  | [] => []
  | [l] => l.bytes
  | l :: ls => l.bytes ++ 10 :: join_lines ls

/-- An input made of LF-separated lines, with or without a final LF. -/
def input_of (ls : List Line) (trailing : Bool) : List Nat :=
  join_lines ls ++ if trailing then [10] else []

/-- The Settings that the lines stand for: one per `identifier=value` line,
none per comment line, in the order of the lines. -/
def settings_of : List Line → List cfg_setting_t
  | [] => []
  | Line.comment _ :: ls => settings_of ls
  | Line.setting identifier value :: ls => string_setting identifier value :: settings_of ls

/-- The line is an `identifier=value` line. -/
def Line.is_setting : Line → Prop
  | Line.comment _ => False
  | Line.setting _ _ => True

instance (l : Line) : Decidable l.is_setting := by
  cases l <;> unfold Line.is_setting <;> infer_instance

/-- One text line `identifier=value` per Setting, each ended by LF, in the
order of the list. -/
def pair_lines : List cfg_setting_t → List Nat
  | [] => []
  | s :: rest => (s.identifier ++ 61 :: s.string ++ [10]) ++ pair_lines rest

/-- A line that holds no setting: a comment line (`#` followed by `body`) or a
pure-whitespace line (`ws`, possibly empty). -/
inductive QuietLine where
  | comment (body : List Nat)
  | blank (ws : List Nat)
  deriving DecidableEq, Repr

/-- The bytes of such a line, without a line terminator. -/
def QuietLine.bytes : QuietLine → List Nat
  | QuietLine.comment body => 35 :: body
  | QuietLine.blank ws => ws

/-- A comment holds no LF; a pure-whitespace line holds only space, tab and
CR bytes. -/
def QuietLine.well_formed : QuietLine → Prop
  | QuietLine.comment body => 10 ∉ body
  | QuietLine.blank ws => ∀ b ∈ ws, is_blank b

instance (l : QuietLine) : Decidable l.well_formed := by
  cases l <;> unfold QuietLine.well_formed <;> infer_instance

/-- Comment and whitespace lines joined by LF, no LF after the last one (an
input that ends in LF has an empty last line). -/
def join_quiet : List QuietLine → List Nat
  | [] => []
  | [l] => l.bytes
  | l :: ls => l.bytes ++ 10 :: join_quiet ls

/-- A text that consists only of LF-separated comment lines and
pure-whitespace lines. -/
def quiet_text (t : List Nat) : Prop :=
  ∃ ls : List QuietLine, (∀ l ∈ ls, l.well_formed) ∧ t = join_quiet ls

instance holds_decidable (str : Nat → Nat) : ∀ (c : Nat) (l : List Nat), Decidable (holds str c l)
  | _, [] => isTrue trivial
  | c, x :: xs =>
    match Nat.decEq (str c) x, holds_decidable str (c + 1) xs with
    | isTrue h1, isTrue h2 => isTrue ⟨h1, h2⟩
    | isFalse h1, _ => isFalse (fun h => h1 h.1)
    | _, isFalse h2 => isFalse (fun h => h2 h.2)

/-- A block of memory that `cfg_free` hands to `free`, named by the place its
pointer is read from: `cfg->settings[i]->string`,
`cfg->settings[i]->identifier`, `cfg->settings[i]`, or `cfg->settings`. -/
inductive Released where
  | string (i : Nat)
  | identifier (i : Nat)
  | setting (i : Nat)
  | settings
  deriving DecidableEq, Repr

/-- The index of the Setting a block belongs to. -/
def Released.index : Released → Option Nat
  | Released.string i => some i
  | Released.identifier i => some i
  | Released.setting i => some i
  | Released.settings => none

/-- `free(p)` on a heap in which the blocks `dead` have been released
already: `p` is released too; `none`, undefined behaviour, when `p` is
released already. -/
def heap_free (dead : List Released) (p : Released) : Option (List Released) :=
  if p ∈ dead then none else some (dead ++ [p])

/-- The loop of `cfg_free` (cfg.c:16-25) from index `i` on, on a heap in which
the blocks `dead` have been released already.  Each pass reads the cell
`cfg->settings[i]` of the array and then the members `type`, `string`,
`identifier` of the Setting: `none`, undefined behaviour, when the array or
the Setting is released memory.  Otherwise the pass does
`free(current->string)` when the Setting is tagged String, then
`free(current->identifier)` and `free(current)`. -/
def cfg_free_loop : List cfg_setting_t → Nat → List Released → Option (List Released)
  | [], _, dead => some dead
  | current :: rest, i, dead =>
    if Released.settings ∈ dead ∨ Released.setting i ∈ dead then none
    else
      match (if current.type = cfg_setting_type_string then heap_free dead (Released.string i)
        else some dead) with
      | none => none
      | some dead1 =>
        match heap_free dead1 (Released.identifier i) with
        | none => none
        | some dead2 =>
          match heap_free dead2 (Released.setting i) with
          | none => none
          | some dead3 => cfg_free_loop rest (i + 1) dead3

/-- `cfg_free` (cfg.c:13-28) on a heap in which the blocks `dead` have been
released already.  The store is given by the values of its members, which the
function never assigns: `cfg.settings_len`, and the cells the array held when
it was written, which are read only through pointers that are checked to be
live.  The result is the value of `cfg->settings_len` after the call and the
blocks released by then; `none` is undefined behaviour.  The last statement,
`free(cfg->settings)`, releases the array; for a store that never held a
Setting, `cfg.c` has never assigned `settings`, and it is taken to be the null
pointer of a zero-initialised store, on which `free` does nothing. -/
def cfg_free (cfg : cfg_t) (dead : List Released) : Option (Nat × List Released) :=
  match cfg_free_loop cfg.settings 0 dead with
  | none => none
  | some dead1 =>
    if cfg.settings_len = 0 then some (cfg.settings_len, dead1)
    else
      match heap_free dead1 Released.settings with
      | none => none
      | some dead2 => some (cfg.settings_len, dead2)

/-- The blocks of the Settings from index `i` on, in the order in which a
call of `cfg_free` on a live store releases them. -/
def setting_blocks : List cfg_setting_t → Nat → List Released
  | [], _ => []
  | current :: rest, i =>
    (if current.type = cfg_setting_type_string then [Released.string i] else []) ++
      Released.identifier i :: Released.setting i :: setting_blocks rest (i + 1)

/-- The outcome of a loop pass with both cursors moved `k` bytes further on. -/
def Step.shift (k : Nat) : Step → Step
  | Step.ret status cfg => Step.ret status cfg
  | Step.next c1 c2 cfg => Step.next (c1 + k) (c2 + k) cfg

/-- The bytes of the memory from index `a` up to, not including, index `b`. -/
def span (str : Nat → Nat) (a b : Nat) : List Nat :=
  (List.range (b - a)).map (fun i => str (a + i))

/-- The first letter of `false` or of `true`: the bytes of the last `case`
group of the inner switch. -/
def starts_boolean (v : Nat) : Prop := v = 102 ∨ v = 116

instance (v : Nat) : Decidable (starts_boolean v) := by unfold starts_boolean; infer_instance

/-- The indices at which an inner loop `while (cond(str[c2]) && c2 < len)`
reads the buffer, in order: every test of the loop condition evaluates
`str[c2]` first and `c2 < len` after it.  Same recursion as `scan`; when no
byte is left before `len` the condition is still tested once, which reads
`str[c2]`. -/
def scan_reads (cond : Nat → Bool) (str : Nat → Nat) (len : Nat) : Nat → Nat → List Nat
  | 0, c2 => [c2]
  | left + 1, c2 =>
    c2 :: if cond (str c2) && decide (c2 < len) then scan_reads cond str len left (c2 + 1)
      else []

/-- The indices at which one pass through the loop body reads the buffer, in
order: `switch (str[c1])`, the conditions of the inner loop or loops the pass
runs, and `switch (str[value_pos])`.  (The reads made inside `strndup` are not
listed.) -/
def cfg_parse_body_reads (str : Nat → Nat) (len : Nat) (c1 c2 : Nat) : List Nat :=
  let b := str c1
  c1 ::
    if b = 13 ∨ b = 9 ∨ b = 32 then []
    else if b = 10 then []
    else if b = 35 then scan_reads (fun b => b != 10) str len (len - c2) c2
    else
      let e := scan_identifier str len c2
      scan_reads (fun b => b != 61) str len (len - c2) c2 ++
        if e + 1 ≥ len then []
        else
          scan_reads (fun b => b != 10 && b != 35) str len (len - (e + 1)) (e + 1) ++ [e + 1]

/-- The indices at which the main loop reads the buffer.  Same recursion as
`cfg_parse_loop`. -/
def cfg_parse_reads_loop (str : Nat → Nat) (len : Nat) : Nat → Nat → Nat → cfg_t → List Nat
  | 0, _, _, _ => []
  | fuel + 1, c1, c2, cfg =>
    if c2 < len then
      cfg_parse_body_reads str len c1 c2 ++
        match cfg_parse_body str len c1 c2 cfg with
        | Step.ret _ _ => []
        | Step.next c1' c2' cfg' => cfg_parse_reads_loop str len fuel c1' c2' cfg'
    else
      []

/-- The indices at which a call `cfg_parse(cfg, str, len)` reads `str`. -/
def cfg_parse_reads (cfg : cfg_t) (str : Nat → Nat) (len : Nat) : List Nat :=
  cfg_parse_reads_loop str len (len + 1) 0 0 cfg

/-- The triple `x = (p, e, c')` marks an `identifier=value` pair of the
buffer: an identifier starts at `p`, the first `=` from `p` on is at `e` and is
not the last byte, the byte after it starts a value, and the value runs from
`e + 1` up to `c'`, where the buffer ends or an LF or `#` stands. -/
def is_pair (str : Nat → Nat) (len : Nat) (x : Nat × Nat × Nat) : Prop :=
  starts_identifier (str x.1) ∧ x.1 ≤ x.2.1 ∧ (∀ i, x.1 ≤ i → i < x.2.1 → str i ≠ 61) ∧
  str x.2.1 = 61 ∧ x.2.1 + 1 < len ∧ starts_value (str (x.2.1 + 1)) ∧
  x.2.1 + 1 ≤ x.2.2 ∧ x.2.2 ≤ len ∧
  (∀ i, x.2.1 + 1 ≤ i → i < x.2.2 → str i ≠ 10 ∧ str i ≠ 35) ∧
  (x.2.2 < len → str x.2.2 = 10 ∨ str x.2.2 = 35)

/-- The Setting of the pair `(p, e, c')`: its identifier is the span of the
buffer from `p` to `e`, its value the span from `e + 1` to `c'`, each cut
before its first NUL byte. -/
def setting_at (str : Nat → Nat) (x : Nat × Nat × Nat) : cfg_setting_t :=
  string_setting (strdup (span str x.1 x.2.1)) (strdup (span str (x.2.1 + 1) x.2.2))

/-! ## Scanning loops -/

theorem scan_ge (cond : Nat → Bool) (str : Nat → Nat) (len : Nat) :
    ∀ n c2, c2 ≤ scan cond str len n c2 := by
  intro n
  induction n with
  | zero => intro c2; simp [scan]
  | succ n ih =>
    intro c2
    simp only [scan]
    split
    · exact Nat.le_trans (Nat.le_succ c2) (ih (c2 + 1))
    · exact Nat.le_refl c2

theorem scan_le (cond : Nat → Bool) (str : Nat → Nat) (len : Nat) :
    ∀ n c2, c2 ≤ len → scan cond str len n c2 ≤ len := by
  intro n
  induction n with
  | zero => intro c2 h; simpa [scan] using h
  | succ n ih =>
    intro c2 h
    simp only [scan]
    split
    · rename_i hc
      simp only [Bool.and_eq_true, decide_eq_true_eq] at hc
      exact ih (c2 + 1) hc.2
    · exact h

/-- A scan that starts at `c2` stops at `e` when every byte in between
satisfies the loop condition and `e` is the end of the buffer or a byte that
fails it. -/
theorem scan_eq (cond : Nat → Bool) (str : Nat → Nat) (len e : Nat) :
    ∀ n c2, len - c2 ≤ n → c2 ≤ e → e ≤ len →
      (∀ i, c2 ≤ i → i < e → cond (str i) = true) →
      (e < len → cond (str e) = false) →
      scan cond str len n c2 = e := by
  intro n
  induction n with
  | zero =>
    intro c2 hn h1 h2 _ _
    simp only [scan]
    omega
  | succ n ih =>
    intro c2 hn h1 h2 hmid hend
    simp only [scan]
    by_cases hce : c2 = e
    · subst hce
      by_cases hl : c2 < len
      · simp [hend hl]
      · simp [hl]
    · have hlt : c2 < e := by omega
      have hc : cond (str c2) = true := hmid c2 (Nat.le_refl _) hlt
      have hl : c2 < len := by omega
      simp only [hc, hl, decide_True, Bool.and_self, if_true]
      exact ih (c2 + 1) (by omega) (by omega) h2
        (fun i hi hie => hmid i (by omega) hie) hend

/-- Every byte a scan passes over satisfies the loop condition and lies
inside the buffer. -/
theorem scan_mid (cond : Nat → Bool) (str : Nat → Nat) (len : Nat) :
    ∀ n c2 i, c2 ≤ i → i < scan cond str len n c2 → cond (str i) = true ∧ i < len := by
  intro n
  induction n with
  | zero => intro c2 i h1 h2; simp only [scan] at h2; omega
  | succ n ih =>
    intro c2 i h1 h2
    simp only [scan] at h2
    split at h2
    · rename_i hc
      simp only [Bool.and_eq_true, decide_eq_true_eq] at hc
      by_cases hi : i = c2
      · subst hi; exact hc
      · exact ih (c2 + 1) i (by omega) h2
    · omega

/-- Where a scan with the full count stops, the loop condition fails. -/
theorem scan_stop (cond : Nat → Bool) (str : Nat → Nat) (len : Nat) :
    ∀ n c2, len - c2 ≤ n → scan cond str len n c2 < len →
      cond (str (scan cond str len n c2)) = false := by
  intro n
  induction n with
  | zero => intro c2 hn h; simp only [scan] at h; omega
  | succ n ih =>
    intro c2 hn h
    simp only [scan] at h ⊢
    split
    · rename_i hc
      rw [if_pos hc] at h
      exact ih (c2 + 1) (by omega) h
    · rename_i hc
      rw [if_neg hc] at h
      simp only [Bool.and_eq_true, decide_eq_true_eq, not_and] at hc
      by_contra hcon
      exact hc (by simpa using hcon) h

/-! ## Copies and stores -/

theorem cfg_add_setting_eq (cfg : cfg_t) (setting : cfg_setting_t) :
    cfg_add_setting cfg setting = (0, { settings := cfg.settings ++ [setting] }) := by
  unfold cfg_add_setting cfg_t.settings_len
  split
  · rename_i h
    rw [List.length_eq_zero] at h
    simp [h]
  · rfl

theorem cfg_add_string_setting_with_length_eq (cfg : cfg_t) (buf : Nat → Nat)
    (str_pos str_len id_pos id_len : Nat) :
    cfg_add_string_setting_with_length cfg buf str_pos str_len id_pos id_len =
      (0, { settings := cfg.settings ++
        [string_setting (strndup buf id_pos id_len) (strndup buf str_pos str_len)] }) := by
  simp [cfg_add_string_setting_with_length, cfg_add_setting_eq, string_setting]

theorem strndup_holds (str : Nat → Nat) :
    ∀ (l : List Nat) (p : Nat), holds str p l → 0 ∉ l → strndup str p l.length = l := by
  intro l
  induction l with
  | nil => intro p _ _; rfl
  | cons x xs ih =>
    intro p h h0
    obtain ⟨hx, hxs⟩ := h
    simp only [List.mem_cons, not_or] at h0
    simp only [List.length_cons, strndup, hx]
    rw [if_neg (fun h => h0.1 h.symm), ih (p + 1) hxs h0.2]

theorem strndup_eq_nil (str : Nat → Nat) (p n : Nat) :
    strndup str p n = [] ↔ n = 0 ∨ str p = 0 := by
  cases n with
  | zero => simp [strndup]
  | succ n =>
    simp only [strndup]
    by_cases h : str p = 0 <;> simp [h]

theorem holds_append (str : Nat → Nat) :
    ∀ (a b : List Nat) (c : Nat),
      holds str c (a ++ b) ↔ holds str c a ∧ holds str (c + a.length) b := by
  intro a
  induction a with
  | nil => intro b c; simp [holds]
  | cons x xs ih =>
    intro b c
    have e : c + (xs.length + 1) = c + 1 + xs.length := by omega
    show (str c = x ∧ holds str (c + 1) (xs ++ b)) ↔ _
    rw [ih b (c + 1), List.length_cons, e]
    simp only [holds, and_assoc]

theorem holds_get (str : Nat → Nat) :
    ∀ (l : List Nat) (c i : Nat), holds str c l → i < l.length →
      str (c + i) ∈ l := by
  intro l
  induction l with
  | nil => intro c i _ hi; simp at hi
  | cons x xs ih =>
    intro c i h hi
    obtain ⟨hx, hxs⟩ := h
    cases i with
    | zero => simp [hx]
    | succ i =>
      have := ih (c + 1) i hxs (by simpa using hi)
      have e : c + (i + 1) = c + 1 + i := by omega
      rw [e]
      exact List.mem_cons_of_mem _ this

/-- Every byte of the memory inside a span that holds `l` has each property
that all bytes of `l` have. -/
theorem holds_forall (str : Nat → Nat) (l : List Nat) (c : Nat) (P : Nat → Prop)
    (h : holds str c l) (hP : ∀ x ∈ l, P x) :
    ∀ i, c ≤ i → i < c + l.length → P (str i) := by
  intro i h1 h2
  have := holds_get str l c (i - c) h (by omega)
  have e : c + (i - c) = i := by omega
  rw [e] at this
  exact hP _ this

theorem holds_ofBytes_aux (l : List Nat) :
    ∀ (m : List Nat) (c : Nat), c + m.length = l.length → m = l.drop c →
      holds (ofBytes l) c m := by
  intro m
  induction m with
  | nil => intro c _ _; trivial
  | cons x xs ih =>
    intro c hlen hm
    have hc : c < l.length := by simp at hlen; omega
    refine ⟨?_, ih (c + 1) (by simp at hlen ⊢; omega) ?_⟩
    · have := List.drop_eq_getElem_cons hc
      rw [this] at hm
      simp only [ofBytes, List.getD_eq_getElem?_getD, List.getElem?_eq_getElem hc,
        Option.getD_some]
      exact (List.cons.inj hm).1.symm
    · have := List.drop_eq_getElem_cons hc
      rw [this] at hm
      exact (List.cons.inj hm).2

/-- The memory `ofBytes l` holds `l` at offset 0. -/
theorem holds_ofBytes (l : List Nat) : holds (ofBytes l) 0 l :=
  holds_ofBytes_aux l l 0 (by simp) (by simp)

/-! ## One pass through the loop body -/

theorem classify_value_eq (cfg : cfg_t) (str : Nat → Nat)
    (id_pos id_len value_pos value_len c2 : Nat) :
    classify_value cfg str id_pos id_len value_pos value_len c2 =
      if starts_value (str value_pos) then
        Step.next c2 c2 { settings := cfg.settings ++
          [string_setting (strndup str id_pos id_len) (strndup str value_pos value_len)] }
      else Step.ret 1 cfg := by
  unfold classify_value starts_value
  simp only [cfg_add_string_setting_with_length_eq]
  generalize str value_pos = v
  split_ifs <;> first | rfl | omega

theorem body_blank (str : Nat → Nat) (len c : Nat) (cfg : cfg_t) (h : is_blank (str c)) :
    cfg_parse_body str len c c cfg =
      if c + 2 ≥ len then Step.ret 1 cfg else Step.next (c + 2) (c + 2) cfg := by
  unfold is_blank at h
  simp only [cfg_parse_body, h, if_true]

theorem body_newline (str : Nat → Nat) (len c : Nat) (cfg : cfg_t) (h : str c = 10) :
    cfg_parse_body str len c c cfg =
      if c + 1 ≥ len then Step.ret 1 cfg else Step.next (c + 1) (c + 1) cfg := by
  simp [cfg_parse_body, h]

theorem body_comment (str : Nat → Nat) (len c : Nat) (cfg : cfg_t) (h : str c = 35) :
    cfg_parse_body str len c c cfg =
      Step.next (scan_comment str len c) (scan_comment str len c) cfg := by
  simp [cfg_parse_body, h]

theorem body_identifier (str : Nat → Nat) (len c : Nat) (cfg : cfg_t)
    (h : starts_identifier (str c)) :
    cfg_parse_body str len c c cfg =
      if scan_identifier str len c + 1 ≥ len then Step.ret 1 cfg
      else classify_value cfg str c (scan_identifier str len c - c)
        (scan_identifier str len c + 1)
        (scan_value str len (scan_identifier str len c + 1) - (scan_identifier str len c + 1))
        (scan_value str len (scan_identifier str len c + 1)) := by
  obtain ⟨h1, h2, h3⟩ := h
  unfold is_blank at h1
  simp only [cfg_parse_body, h1, h2, h3, if_false]

theorem byte_cases (b : Nat) : is_blank b ∨ b = 10 ∨ b = 35 ∨ starts_identifier b := by
  unfold starts_identifier
  by_cases h1 : is_blank b
  · exact Or.inl h1
  · by_cases h2 : b = 10
    · exact Or.inr (Or.inl h2)
    · by_cases h3 : b = 35
      · exact Or.inr (Or.inr (Or.inl h3))
      · exact Or.inr (Or.inr (Or.inr ⟨h1, h2, h3⟩))

theorem scan_gt (cond : Nat → Bool) (str : Nat → Nat) (len c : Nat)
    (hc : cond (str c) = true) (hl : c < len) : c < scan cond str len (len - c) c := by
  obtain ⟨n, hn⟩ : ∃ n, len - c = n + 1 := ⟨len - c - 1, by omega⟩
  rw [hn]
  simp only [scan, hc, hl, decide_True, Bool.and_self, if_true]
  exact scan_ge cond str len n (c + 1)

/-- A pass through the body that starts with both cursors at `c < len` and
does not return leaves both cursors equal, strictly further on and not past
`len`; the store is unchanged or has gained one String-tagged Setting. -/
theorem body_next (str : Nat → Nat) (len c : Nat) (cfg : cfg_t) (c1' c2' : Nat) (cfg' : cfg_t)
    (hl : c < len) (hb : cfg_parse_body str len c c cfg = Step.next c1' c2' cfg') :
    c1' = c2' ∧ c < c2' ∧ c2' ≤ len ∧
      (cfg' = cfg ∨ ∃ s, cfg'.settings = cfg.settings ++ [s] ∧
        s.type = cfg_setting_type_string) := by
  rcases byte_cases (str c) with h | h | h | h
  · rw [body_blank str len c cfg h] at hb
    split at hb
    · cases hb
    · cases hb
      exact ⟨rfl, by omega, by omega, Or.inl rfl⟩
  · rw [body_newline str len c cfg h] at hb
    split at hb
    · cases hb
    · cases hb
      exact ⟨rfl, by omega, by omega, Or.inl rfl⟩
  · rw [body_comment str len c cfg h] at hb
    cases hb
    refine ⟨rfl, ?_, ?_, Or.inl rfl⟩
    · exact scan_gt _ str len c (by simp [h]) hl
    · exact scan_le _ str len _ c (Nat.le_of_lt hl)
  · rw [body_identifier str len c cfg h, classify_value_eq] at hb
    split at hb
    · cases hb
    · rename_i hlt
      split at hb
      · cases hb
        have h1 : c ≤ scan_identifier str len c := scan_ge _ str len _ c
        have h2 : scan_identifier str len c + 1 ≤
            scan_value str len (scan_identifier str len c + 1) := scan_ge _ str len _ _
        refine ⟨rfl, by omega, ?_, Or.inr ⟨_, rfl, rfl⟩⟩
        exact scan_le _ str len _ _ (by omega)
      · cases hb

/-- A pass through the body that returns, returns 1 and leaves the store as
it found it. -/
theorem body_ret (str : Nat → Nat) (len c : Nat) (cfg : cfg_t) (status : Int) (cfg' : cfg_t)
    (hb : cfg_parse_body str len c c cfg = Step.ret status cfg') :
    status = 1 ∧ cfg' = cfg := by
  rcases byte_cases (str c) with h | h | h | h
  · rw [body_blank str len c cfg h] at hb
    split at hb
    · cases hb; exact ⟨rfl, rfl⟩
    · cases hb
  · rw [body_newline str len c cfg h] at hb
    split at hb
    · cases hb; exact ⟨rfl, rfl⟩
    · cases hb
  · rw [body_comment str len c cfg h] at hb
    cases hb
  · rw [body_identifier str len c cfg h, classify_value_eq] at hb
    split at hb
    · cases hb; exact ⟨rfl, rfl⟩
    · split at hb
      · cases hb
      · cases hb; exact ⟨rfl, rfl⟩

/-! ## The main loop -/

/-- With both cursors at `c ≤ len`, any fuel of at least `len + 1 - c` gives
the same result. -/
theorem loop_fuel (str : Nat → Nat) (len : Nat) :
    ∀ n c f cfg, len - c ≤ n → c ≤ len → len + 1 - c ≤ f →
      cfg_parse_loop str len f c c cfg = run str len c cfg := by
  intro n
  induction n with
  | zero =>
    intro c f cfg hn hc hf
    have hcl : c = len := by omega
    subst hcl
    obtain ⟨f', rfl⟩ : ∃ f', f = f' + 1 := ⟨f - 1, by omega⟩
    have e : c + 1 - c = 0 + 1 := by omega
    simp [run, e, cfg_parse_loop]
  | succ n ih =>
    intro c f cfg hn hc hf
    obtain ⟨f', rfl⟩ : ∃ f', f = f' + 1 := ⟨f - 1, by omega⟩
    have e : len + 1 - c = (len - c) + 1 := by omega
    unfold run
    rw [e]
    simp only [cfg_parse_loop]
    split
    · rename_i hlt
      cases hb : cfg_parse_body str len c c cfg with
      | ret status cfg' => rfl
      | next c1' c2' cfg' =>
        obtain ⟨h1, h2, h3, _⟩ := body_next str len c cfg c1' c2' cfg' hlt hb
        subst h1
        simp only
        rw [ih c1' f' cfg' (by omega) h3 (by omega),
          ih c1' (len - c) cfg' (by omega) h3 (by omega)]
    · rfl

theorem cfg_parse_eq_run (cfg : cfg_t) (str : Nat → Nat) (len : Nat) :
    cfg_parse cfg str len = run str len 0 cfg := rfl

theorem run_end (str : Nat → Nat) (len : Nat) (cfg : cfg_t) :
    run str len len cfg = some (0, cfg) := by
  have e : len + 1 - len = 0 + 1 := by omega
  simp [run, e, cfg_parse_loop]

theorem run_ret (str : Nat → Nat) (len c : Nat) (cfg : cfg_t) (status : Int) (cfg' : cfg_t)
    (hl : c < len) (hb : cfg_parse_body str len c c cfg = Step.ret status cfg') :
    run str len c cfg = some (status, cfg') := by
  have e : len + 1 - c = (len - c) + 1 := by omega
  simp [run, e, cfg_parse_loop, hl, hb]

theorem run_next (str : Nat → Nat) (len c : Nat) (cfg : cfg_t) (c1' c2' : Nat) (cfg' : cfg_t)
    (hl : c < len) (hb : cfg_parse_body str len c c cfg = Step.next c1' c2' cfg') :
    run str len c cfg = run str len c2' cfg' := by
  obtain ⟨h1, h2, h3, _⟩ := body_next str len c cfg c1' c2' cfg' hl hb
  subst h1
  have e : len + 1 - c = (len - c) + 1 := by omega
  unfold run
  rw [e]
  simp only [cfg_parse_loop, hl, if_true, hb]
  exact loop_fuel str len (len - c1') c1' (len - c) cfg' (Nat.le_refl _) h3 (by omega)

/-- Induction along a call: a property `Q c cfg r` of the result `r` of the
loop entered at `c` with store `cfg` holds as soon as it holds where the loop
ends or returns and is carried backwards over every pass that does not return.
The loop always returns a result. -/
theorem run_rec (str : Nat → Nat) (len : Nat) (Q : Nat → cfg_t → Int × cfg_t → Prop)
    (hend : ∀ cfg, Q len cfg (0, cfg))
    (hret : ∀ c cfg, c < len → cfg_parse_body str len c c cfg = Step.ret 1 cfg →
      Q c cfg (1, cfg))
    (hstep : ∀ c cfg c' cfg' r, c < len →
      cfg_parse_body str len c c cfg = Step.next c' c' cfg' → c < c' → c' ≤ len →
      Q c' cfg' r → Q c cfg r) :
    ∀ n c cfg, len - c ≤ n → c ≤ len → ∃ r, run str len c cfg = some r ∧ Q c cfg r := by
  intro n
  induction n with
  | zero =>
    intro c cfg hn hc
    have : c = len := by omega
    subst this
    exact ⟨(0, cfg), run_end str c cfg, hend cfg⟩
  | succ n ih =>
    intro c cfg hn hc
    by_cases hcl : c = len
    · subst hcl
      exact ⟨(0, cfg), run_end str c cfg, hend cfg⟩
    · have hlt : c < len := by omega
      cases hb : cfg_parse_body str len c c cfg with
      | ret status cfg' =>
        obtain ⟨h1, h2⟩ := body_ret str len c cfg status cfg' hb
        subst h1 h2
        exact ⟨(1, cfg'), run_ret str len c cfg' 1 cfg' hlt hb, hret c cfg' hlt hb⟩
      | next c1' c2' cfg' =>
        obtain ⟨h1, h2, h3, _⟩ := body_next str len c cfg c1' c2' cfg' hlt hb
        subst h1
        obtain ⟨r, hr, hq⟩ := ih c1' cfg' (by omega) h3
        refine ⟨r, ?_, hstep c cfg c1' cfg' r hlt hb h2 h3 hq⟩
        rw [run_next str len c cfg c1' c1' cfg' hlt hb, hr]

/-- With both cursors at `c ≤ len`, the list of loop-head states does not
depend on the fuel either, once it is at least `len + 1 - c`. -/
theorem trace_fuel (str : Nat → Nat) (len : Nat) :
    ∀ n c f cfg, len - c ≤ n → c ≤ len → len + 1 - c ≤ f →
      cfg_parse_trace_loop str len f c c cfg =
        cfg_parse_trace_loop str len (len + 1 - c) c c cfg := by
  intro n
  induction n with
  | zero =>
    intro c f cfg hn hc hf
    have hcl : c = len := by omega
    subst hcl
    obtain ⟨f', rfl⟩ : ∃ f', f = f' + 1 := ⟨f - 1, by omega⟩
    have e : c + 1 - c = 0 + 1 := by omega
    simp [e, cfg_parse_trace_loop]
  | succ n ih =>
    intro c f cfg hn hc hf
    obtain ⟨f', rfl⟩ : ∃ f', f = f' + 1 := ⟨f - 1, by omega⟩
    have e : len + 1 - c = (len - c) + 1 := by omega
    rw [e]
    simp only [cfg_parse_trace_loop]
    split
    · rename_i hlt
      cases hb : cfg_parse_body str len c c cfg with
      | ret status cfg' => rfl
      | next c1' c2' cfg' =>
        obtain ⟨h1, h2, h3, _⟩ := body_next str len c cfg c1' c2' cfg' hlt hb
        subst h1
        simp only
        rw [ih c1' f' cfg' (by omega) h3 (by omega),
          ih c1' (len - c) cfg' (by omega) h3 (by omega)]
    · rfl

/-- The loop-head states from `c` on, when the pass at `c` does not return. -/
theorem trace_next (str : Nat → Nat) (len c : Nat) (cfg : cfg_t) (c' : Nat) (cfg' : cfg_t)
    (hl : c < len) (hb : cfg_parse_body str len c c cfg = Step.next c' c' cfg') :
    cfg_parse_trace_loop str len (len + 1 - c) c c cfg =
      (c, c, cfg) :: cfg_parse_trace_loop str len (len + 1 - c') c' c' cfg' := by
  obtain ⟨_, h2, h3, _⟩ := body_next str len c cfg c' c' cfg' hl hb
  have e : len + 1 - c = (len - c) + 1 := by omega
  rw [e]
  simp only [cfg_parse_trace_loop, hl, if_true, hb]
  rw [trace_fuel str len (len - c') c' (len - c) cfg' (Nat.le_refl _) h3 (by omega)]

/-- At every loop-head state that the call passes through, both cursors are
equal and below `len`, and the call's result is the result of the loop
entered there. -/
theorem trace_run (str : Nat → Nat) (len : Nat) :
    ∀ n c cfg (x : Nat × Nat × cfg_t), len - c ≤ n → c ≤ len →
      x ∈ cfg_parse_trace_loop str len (len + 1 - c) c c cfg →
      x.1 = x.2.1 ∧ x.2.1 < len ∧ run str len c cfg = run str len x.2.1 x.2.2 := by
  intro n
  induction n with
  | zero =>
    intro c cfg x hn hc hx
    have hcl : c = len := by omega
    subst hcl
    have e : c + 1 - c = 0 + 1 := by omega
    simp [e, cfg_parse_trace_loop] at hx
  | succ n ih =>
    intro c cfg x hn hc hx
    by_cases hcl : c = len
    · subst hcl
      have e : c + 1 - c = 0 + 1 := by omega
      simp [e, cfg_parse_trace_loop] at hx
    · have hlt : c < len := by omega
      cases hb : cfg_parse_body str len c c cfg with
      | ret status cfg' =>
        have e : len + 1 - c = (len - c) + 1 := by omega
        rw [e] at hx
        simp only [cfg_parse_trace_loop, hlt, if_true, hb, List.mem_singleton] at hx
        subst hx
        exact ⟨rfl, hlt, rfl⟩
      | next c1' c2' cfg' =>
        obtain ⟨h1, h2, h3, _⟩ := body_next str len c cfg c1' c2' cfg' hlt hb
        subst h1
        rw [trace_next str len c cfg c1' cfg' hlt hb] at hx
        rcases List.mem_cons.1 hx with rfl | hx
        · exact ⟨rfl, hlt, rfl⟩
        · obtain ⟨k1, k2, k3⟩ := ih c1' cfg' x (by omega) h3 hx
          exact ⟨k1, k2, by rw [run_next str len c cfg c1' c1' cfg' hlt hb, k3]⟩

/-- The same, for a whole call of `cfg_parse`. -/
theorem cfg_parse_trace_run (cfg0 : cfg_t) (str : Nat → Nat) (len c1 c2 : Nat) (cfg : cfg_t)
    (h : (c1, c2, cfg) ∈ cfg_parse_trace cfg0 str len) :
    c1 = c2 ∧ c2 < len ∧ cfg_parse cfg0 str len = run str len c2 cfg :=
  trace_run str len len 0 cfg0 (c1, c2, cfg) (by omega) (Nat.zero_le _) h

/-- A scan whose condition fails on LF stops before the end of a buffer whose
last byte is LF. -/
theorem scan_lt_of_last (cond : Nat → Bool) (str : Nat → Nat) (len n c : Nat)
    (hcond : cond 10 = false) (hc : c < len) (hlast : str (len - 1) = 10) :
    scan cond str len n c < len := by
  by_contra hge
  have := (scan_mid cond str len n c (len - 1) (by omega) (by omega)).1
  rw [hlast, hcond] at this
  exact Bool.false_ne_true this

/-- A pass that does not return leaves the store alone, or it is a pass of
the `default` branch and appends the Setting copied from the two spans. -/
theorem body_next_cases (str : Nat → Nat) (len c : Nat) (cfg : cfg_t) (c' : Nat) (cfg' : cfg_t)
    (hb : cfg_parse_body str len c c cfg = Step.next c' c' cfg') :
    cfg' = cfg ∨
      (starts_identifier (str c) ∧
        cfg' = { settings := cfg.settings ++
          [string_setting (strndup str c (scan_identifier str len c - c))
            (strndup str (scan_identifier str len c + 1)
              (c' - (scan_identifier str len c + 1)))] }) := by
  rcases byte_cases (str c) with h | h | h | h
  · rw [body_blank str len c cfg h] at hb
    split at hb
    · cases hb
    · cases hb; exact Or.inl rfl
  · rw [body_newline str len c cfg h] at hb
    split at hb
    · cases hb
    · cases hb; exact Or.inl rfl
  · rw [body_comment str len c cfg h] at hb
    cases hb; exact Or.inl rfl
  · rw [body_identifier str len c cfg h, classify_value_eq] at hb
    split at hb
    · cases hb
    · split at hb
      · cases hb
        exact Or.inr ⟨h, rfl⟩
      · cases hb

/-- The identifier scan that starts at `c < len` stays at `c` exactly when the
byte at `c` is `=`. -/
theorem scan_identifier_eq_self (str : Nat → Nat) (len c : Nat) (hl : c < len) :
    scan_identifier str len c - c = 0 ↔ str c = 61 := by
  constructor
  · intro h
    by_contra hne
    have := scan_gt (fun b => b != 61) str len c (by simpa using hne) hl
    unfold scan_identifier at h
    omega
  · intro h
    have : scan_identifier str len c = c :=
      scan_eq _ str len c _ c (Nat.le_refl _) (Nat.le_refl _) (Nat.le_of_lt hl)
        (fun i h1 h2 => by omega) (fun _ => by simp [h])
    omega

/-! ## Whole lines -/

/-- A newline at `c` that is not the last byte is stepped over. -/
theorem run_newline (str : Nat → Nat) (len c : Nat) (cfg : cfg_t)
    (h : str c = 10) (hl : c + 1 < len) : run str len c cfg = run str len (c + 1) cfg := by
  apply run_next str len c cfg (c + 1) (c + 1) cfg (by omega)
  rw [body_newline str len c cfg h, if_neg (by omega)]

/-- A newline that is the last byte makes the call return 1. -/
theorem run_last_newline (str : Nat → Nat) (len c : Nat) (cfg : cfg_t)
    (h : str c = 10) (hl : c + 1 = len) : run str len c cfg = some (1, cfg) := by
  apply run_ret str len c cfg 1 cfg (by omega)
  rw [body_newline str len c cfg h, if_pos (by omega)]

/-- A comment from `c` up to `e`, where the buffer ends or a newline stands,
is skipped. -/
theorem run_comment_line (str : Nat → Nat) (len c e : Nat) (cfg : cfg_t)
    (h : str c = 35) (hce : c < e) (hel : e ≤ len)
    (hmid : ∀ i, c ≤ i → i < e → str i ≠ 10) (hend : e < len → str e = 10) :
    run str len c cfg = run str len e cfg := by
  apply run_next str len c cfg e e cfg (by omega)
  rw [body_comment str len c cfg h]
  have : scan_comment str len c = e := by
    apply scan_eq _ str len e _ c (Nat.le_refl _) (Nat.le_of_lt hce) hel
    · intro i h1 h2
      simpa using hmid i h1 h2
    · intro h1
      simp [hend h1]
  rw [this]

/-- An `identifier=value` pair at `c`, with the buffer ending or a newline or
`#` standing right after the value, appends its Setting and leaves the
cursors right after the value. -/
theorem run_setting_line (str : Nat → Nat) (len c : Nat) (cfg : cfg_t) (id value : List Nat)
    (hid : begins_with starts_identifier id) (hideq : 61 ∉ id) (hid0 : 0 ∉ id)
    (hv : begins_with starts_value value) (hvnl : 10 ∉ value) (hvhash : 35 ∉ value)
    (hv0 : 0 ∉ value)
    (h : holds str c (id ++ 61 :: value))
    (hel : c + id.length + 1 + value.length ≤ len)
    (hend : c + id.length + 1 + value.length < len →
      str (c + id.length + 1 + value.length) = 10 ∨
      str (c + id.length + 1 + value.length) = 35) :
    run str len c cfg = run str len (c + id.length + 1 + value.length)
      { settings := cfg.settings ++ [string_setting id value] } := by
  rw [holds_append] at h
  obtain ⟨h1, h2, h3⟩ := h
  have hvlen : 0 < value.length := by
    cases value with
    | nil => exact hv.elim
    | cons v vs => simp
  have hidlen : 0 < id.length := by
    cases id with
    | nil => exact hid.elim
    | cons v vs => simp
  have hc : starts_identifier (str c) := by
    cases id with
    | nil => exact hid.elim
    | cons a as => rw [h1.1]; exact hid
  have hv1 : starts_value (str (c + id.length + 1)) := by
    cases value with
    | nil => exact hv.elim
    | cons a as => rw [h3.1]; exact hv
  have e1 : scan_identifier str len c = c + id.length := by
    apply scan_eq _ str len _ _ c (Nat.le_refl _) (by omega) (by omega)
    · intro i hi1 hi2
      have := holds_forall str id c (fun b => b ≠ 61) h1
        (fun x hx hx61 => hideq (hx61 ▸ hx)) i hi1 hi2
      simpa using this
    · intro _
      simp [h2]
  have e2 : scan_value str len (c + id.length + 1) = c + id.length + 1 + value.length := by
    apply scan_eq _ str len _ _ (c + id.length + 1) (Nat.le_refl _) (by omega) hel
    · intro i hi1 hi2
      have := holds_forall str value (c + id.length + 1) (fun b => b ≠ 10 ∧ b ≠ 35) h3
        (fun x hx => ⟨fun hx10 => hvnl (hx10 ▸ hx), fun hx35 => hvhash (hx35 ▸ hx)⟩) i hi1 hi2
      simpa using this
    · intro hlt
      rcases hend hlt with h10 | h35
      · simp [h10]
      · simp [h35]
  apply run_next str len c cfg (c + id.length + 1 + value.length)
    (c + id.length + 1 + value.length) _ (by omega)
  rw [body_identifier str len c cfg hc, e1, if_neg (by omega), classify_value_eq, e2,
    if_pos hv1]
  have e3 : c + id.length - c = id.length := by omega
  have e4 : c + id.length + 1 + value.length - (c + id.length + 1) = value.length := by omega
  rw [e3, e4, strndup_holds str id c h1 hid0,
    strndup_holds str value (c + id.length + 1) h3 hv0]

/-- One well-formed line at `c`, followed by the end of the buffer or by a
newline, is consumed whole and contributes its Setting, if it has one. -/
theorem run_line (str : Nat → Nat) (len c : Nat) (cfg : cfg_t) (l : Line) (r : List Nat)
    (hwf : l.well_formed) (hnul : l.nul_free)
    (h : holds str c (l.bytes ++ r)) (hlen : len = c + (l.bytes ++ r).length)
    (hr : r = [] ∨ ∃ r', r = 10 :: r') :
    run str len c cfg = run str len (c + l.bytes.length)
      { settings := cfg.settings ++ settings_of [l] } := by
  rw [holds_append] at h
  obtain ⟨hl, hrest⟩ := h
  have hend : c + l.bytes.length < len → str (c + l.bytes.length) = 10 := by
    intro hlt
    rcases hr with rfl | ⟨r', rfl⟩
    · simp at hlen; omega
    · exact hrest.1
  have hle : c + l.bytes.length ≤ len := by rw [hlen]; simp
  cases l with
  | comment body =>
    have hb : holds str c ([35] ++ body) := hl
    rw [holds_append] at hb
    have e : ({ settings := cfg.settings ++ settings_of [Line.comment body] } : cfg_t) = cfg := by
      simp [settings_of]
    rw [e]
    apply run_comment_line str len c _ cfg hb.1.1 (by simp [Line.bytes]) hle _ hend
    intro i hi1 hi2
    by_cases hic : i = c
    · rw [hic, hb.1.1]; decide
    · exact holds_forall str body (c + 1) (fun b => b ≠ 10) hb.2
        (fun x hx hx10 => hwf (hx10 ▸ hx)) i (by omega)
        (by simp [Line.bytes] at hi2; omega)
  | setting id value =>
    obtain ⟨w1, w2, w3, w4, w5⟩ := hwf
    have e : c + (Line.setting id value).bytes.length = c + id.length + 1 + value.length := by
      simp [Line.bytes]; omega
    rw [e] at hend hle ⊢
    exact run_setting_line str len c cfg id value w1 w2 hnul.1 w3 w4 w5 hnul.2 hl hle
      (fun hlt => Or.inl (hend hlt))

theorem join_lines_cons (l l' : Line) (ls : List Line) :
    join_lines (l :: l' :: ls) = l.bytes ++ 10 :: join_lines (l' :: ls) := rfl

theorem join_lines_pos (l : Line) (ls : List Line) : 0 < (join_lines (l :: ls)).length := by
  have hb : 0 < l.bytes.length := by cases l <;> simp [Line.bytes]
  cases ls with
  | nil => exact hb
  | cons l' ls => rw [join_lines_cons]; simp

/-- Well-formed NUL-free lines from `c` to the end of the buffer: the call
appends exactly their Settings; it returns 1 when a final LF follows the last
line and 0 otherwise. -/
theorem run_lines (str : Nat → Nat) (len : Nat) (trailing : Bool) :
    ∀ (ls : List Line) (c : Nat) (cfg : cfg_t),
      (∀ l ∈ ls, l.well_formed) → (∀ l ∈ ls, l.nul_free) →
      holds str c (input_of ls trailing) → len = c + (input_of ls trailing).length →
      run str len c cfg =
        some (if trailing then 1 else 0, { settings := cfg.settings ++ settings_of ls }) := by
  intro ls
  induction ls with
  | nil =>
    intro c cfg _ _ h hlen
    cases trailing with
    | false =>
      simp [input_of, join_lines] at hlen
      subst hlen
      simp [settings_of, run_end]
    | true =>
      simp [input_of, join_lines] at hlen
      have h10 : str c = 10 := h.1
      rw [run_last_newline str len c cfg h10 hlen.symm]
      simp [settings_of]
  | cons l ls ih =>
    intro c cfg hwf hnul h hlen
    have hwf' : ∀ l ∈ ls, l.well_formed := fun x hx => hwf x (List.mem_cons_of_mem _ hx)
    have hnul' : ∀ l ∈ ls, l.nul_free := fun x hx => hnul x (List.mem_cons_of_mem _ hx)
    have hset : ∀ cfg : cfg_t, cfg.settings ++ settings_of [l] ++ settings_of ls =
        cfg.settings ++ settings_of (l :: ls) := by
      intro cfg
      cases l <;> simp [settings_of]
    cases ls with
    | nil =>
      have e : input_of [l] trailing = l.bytes ++ input_of [] trailing := by
        simp [input_of, join_lines]
      rw [e] at h hlen
      have hr : input_of [] trailing = [] ∨ ∃ r', input_of [] trailing = 10 :: r' := by
        cases trailing <;> simp [input_of, join_lines]
      rw [run_line str len c cfg l _ (hwf l (List.mem_cons_self _ _))
        (hnul l (List.mem_cons_self _ _)) h hlen hr]
      rw [holds_append] at h
      rw [ih (c + l.bytes.length) _ hwf' hnul' h.2 (by rw [hlen]; simp; omega)]
      simp only [hset]
    | cons l' rest =>
      have e : input_of (l :: l' :: rest) trailing =
          l.bytes ++ 10 :: input_of (l' :: rest) trailing := by
        simp [input_of, join_lines_cons]
      rw [e] at h hlen
      rw [run_line str len c cfg l _ (hwf l (List.mem_cons_self _ _))
        (hnul l (List.mem_cons_self _ _)) h hlen (Or.inr ⟨_, rfl⟩)]
      rw [holds_append] at h
      have hpos : 0 < (input_of (l' :: rest) trailing).length := by
        have := join_lines_pos l' rest
        simp only [input_of, List.length_append]
        omega
      rw [run_newline str len _ _ h.2.1 (by rw [hlen]; simp; omega)]
      rw [ih (c + l.bytes.length + 1) _ hwf' hnul' h.2.2 (by rw [hlen]; simp; omega)]
      simp only [hset]

/-! ## Texts without settings -/

theorem join_quiet_cons (l l' : QuietLine) (ls : List QuietLine) :
    join_quiet (l :: l' :: ls) = l.bytes ++ 10 :: join_quiet (l' :: ls) := rfl

/-- A text of comment and whitespace lines is its first line, followed by
nothing or by LF and a text of the same kind. -/
theorem quiet_text_split (t : List Nat) (h : quiet_text t) (hne : t ≠ []) :
    ∃ (l : QuietLine) (tl : List Nat), l.well_formed ∧ t = l.bytes ++ tl ∧
      (tl = [] ∨ ∃ t', tl = 10 :: t' ∧ quiet_text t') := by
  obtain ⟨ls, hwf, rfl⟩ := h
  cases ls with
  | nil => exact absurd rfl hne
  | cons l rest =>
    cases rest with
    | nil =>
      exact ⟨l, [], hwf l (List.mem_cons_self _ _), by simp [join_quiet], Or.inl rfl⟩
    | cons l' rest =>
      exact ⟨l, 10 :: join_quiet (l' :: rest), hwf l (List.mem_cons_self _ _),
        join_quiet_cons l l' rest,
        Or.inr ⟨_, rfl, l' :: rest, fun x hx => hwf x (List.mem_cons_of_mem _ hx), rfl⟩⟩

theorem quiet_text_nil : quiet_text [] := ⟨[], by simp, rfl⟩

/-- A whitespace line in front of a text of the kind gives a text of the kind. -/
theorem quiet_text_blank (ws tl : List Nat) (hws : ∀ b ∈ ws, is_blank b)
    (htl : tl = [] ∨ ∃ t', tl = 10 :: t' ∧ quiet_text t') : quiet_text (ws ++ tl) := by
  rcases htl with rfl | ⟨t', rfl, ls, hwf, rfl⟩
  · exact ⟨[QuietLine.blank ws], by simpa [QuietLine.well_formed] using hws,
      by simp [join_quiet, QuietLine.bytes]⟩
  · cases ls with
    | nil =>
      refine ⟨[QuietLine.blank ws, QuietLine.blank []], ?_, ?_⟩
      · intro l hl
        simp only [List.mem_cons, List.mem_singleton, List.not_mem_nil, or_false] at hl
        rcases hl with rfl | rfl
        · exact hws
        · intro b hb; cases hb
      · simp [join_quiet, QuietLine.bytes]
    | cons l' rest =>
      refine ⟨QuietLine.blank ws :: l' :: rest, ?_, ?_⟩
      · intro l hl
        rcases List.mem_cons.1 hl with rfl | hl
        · exact hws
        · exact hwf l hl
      · rw [join_quiet_cons]; rfl

/-- The first byte of such a text is a blank, LF or `#`. -/
theorem quiet_text_head (b : Nat) (t : List Nat) (h : quiet_text (b :: t)) :
    is_blank b ∨ b = 10 ∨ b = 35 := by
  obtain ⟨l, tl, hwf, he, htl⟩ := quiet_text_split _ h (by simp)
  cases l with
  | comment body =>
    simp only [QuietLine.bytes, List.cons_append, List.cons.injEq] at he
    exact Or.inr (Or.inr he.1)
  | blank ws =>
    cases ws with
    | nil =>
      simp only [QuietLine.bytes, List.nil_append] at he
      rcases htl with rfl | ⟨t', rfl, _⟩
      · cases he
      · simp only [List.cons.injEq] at he
        exact Or.inr (Or.inl he.1)
    | cons w ws =>
      simp only [QuietLine.bytes, List.cons_append, List.cons.injEq] at he
      rw [he.1]
      exact Or.inl (hwf w (List.mem_cons_self _ _))

/-- Behind a leading LF stands a text of the kind. -/
theorem quiet_text_newline (t : List Nat) (h : quiet_text (10 :: t)) : quiet_text t := by
  obtain ⟨l, tl, hwf, he, htl⟩ := quiet_text_split _ h (by simp)
  cases l with
  | comment body =>
    simp [QuietLine.bytes] at he
  | blank ws =>
    cases ws with
    | nil =>
      simp only [QuietLine.bytes, List.nil_append] at he
      rcases htl with rfl | ⟨t', rfl, ht'⟩
      · cases he
      · simp only [List.cons.injEq, true_and] at he
        rw [he]; exact ht'
    | cons w ws =>
      simp only [QuietLine.bytes, List.cons_append, List.cons.injEq] at he
      have := hwf w (List.mem_cons_self _ _)
      rw [← he.1] at this
      exact absurd this (by decide)

/-- Two bytes behind a leading blank stands a text of the kind. -/
theorem quiet_text_blank_skip (b x : Nat) (t : List Nat) (hb : is_blank b)
    (h : quiet_text (b :: x :: t)) : quiet_text t := by
  obtain ⟨l, tl, hwf, he, htl⟩ := quiet_text_split _ h (by simp)
  cases l with
  | comment body =>
    simp only [QuietLine.bytes, List.cons_append, List.cons.injEq] at he
    rw [he.1] at hb
    exact absurd hb (by decide)
  | blank ws =>
    cases ws with
    | nil =>
      simp only [QuietLine.bytes, List.nil_append] at he
      rcases htl with rfl | ⟨t', rfl, _⟩
      · cases he
      · simp only [List.cons.injEq] at he
        rw [he.1] at hb
        exact absurd hb (by decide)
    | cons w ws =>
      simp only [QuietLine.bytes, List.cons_append, List.cons.injEq] at he
      have hws : ∀ y ∈ ws, is_blank y := fun y hy => hwf y (List.mem_cons_of_mem _ hy)
      cases ws with
      | nil =>
        simp only [List.nil_append] at he
        rcases htl with rfl | ⟨t', rfl, ht'⟩
        · cases he.2
        · simp only [List.cons.injEq] at he
          rw [he.2.2]; exact ht'
      | cons w' ws' =>
        simp only [List.cons_append, List.cons.injEq] at he
        rw [he.2.2]
        exact quiet_text_blank ws' tl (fun y hy => hws y (List.mem_cons_of_mem _ hy)) htl

/-- A leading `#` is followed by a comment body free of LF, and then by
nothing or by LF and a text of the kind. -/
theorem quiet_text_comment (t : List Nat) (h : quiet_text (35 :: t)) :
    ∃ body tl, t = body ++ tl ∧ 10 ∉ body ∧ (tl = [] ∨ ∃ t', tl = 10 :: t' ∧ quiet_text t') := by
  obtain ⟨l, tl, hwf, he, htl⟩ := quiet_text_split _ h (by simp)
  cases l with
  | comment body =>
    simp only [QuietLine.bytes, List.cons_append, List.cons.injEq, true_and] at he
    exact ⟨body, tl, he, hwf, htl⟩
  | blank ws =>
    cases ws with
    | nil =>
      simp only [QuietLine.bytes, List.nil_append] at he
      rcases htl with rfl | ⟨t', rfl, _⟩
      · cases he
      · simp at he
    | cons w ws =>
      simp only [QuietLine.bytes, List.cons_append, List.cons.injEq] at he
      have := hwf w (List.mem_cons_self _ _)
      rw [← he.1] at this
      exact absurd this (by decide)

/-- One pass of the loop over a text of comment and whitespace lines: the
store is left alone and what remains is again such a text. -/
theorem body_quiet (str : Nat → Nat) (len c : Nat) (cfg : cfg_t) (c' : Nat) (cfg' : cfg_t)
    (t : List Nat) (hq : quiet_text t) (ht : holds str c t) (hlen : len = c + t.length)
    (hb : cfg_parse_body str len c c cfg = Step.next c' c' cfg') :
    cfg' = cfg ∧ ∃ t', quiet_text t' ∧ holds str c' t' ∧ len = c' + t'.length := by
  cases t with
  | nil =>
    -- the loop is not entered at the end of the buffer; the claim holds all the same
    rcases byte_cases (str c) with h | h | h | h
    · rw [body_blank str len c cfg h, if_pos (by simp at hlen; omega)] at hb
      cases hb
    · rw [body_newline str len c cfg h, if_pos (by simp at hlen; omega)] at hb
      cases hb
    · rw [body_comment str len c cfg h] at hb
      have e : scan_comment str len c = c := by
        unfold scan_comment
        have : len - c = 0 := by simp at hlen; omega
        rw [this]; rfl
      rw [e] at hb
      cases hb
      exact ⟨rfl, [], quiet_text_nil, trivial, hlen⟩
    · rw [body_identifier str len c cfg h, if_pos] at hb
      · cases hb
      · have := scan_ge (fun b => b != 61) str len (len - c) c
        unfold scan_identifier
        simp at hlen
        omega
  | cons b t1 =>
    obtain ⟨hbc, ht1⟩ := ht
    simp only [List.length_cons] at hlen
    rcases quiet_text_head b t1 hq with h | h | h
    · rw [body_blank str len c cfg (hbc ▸ h)] at hb
      split at hb
      · cases hb
      · rename_i hlt
        cases hb
        cases t1 with
        | nil => simp at hlen; omega
        | cons x t2 =>
          simp only [List.length_cons] at hlen
          exact ⟨rfl, t2, quiet_text_blank_skip b x t2 h hq, ht1.2, by omega⟩
    · subst h
      rw [body_newline str len c cfg hbc] at hb
      split at hb
      · cases hb
      · cases hb
        exact ⟨rfl, t1, quiet_text_newline t1 hq, ht1, by omega⟩
    · subst h
      obtain ⟨body, tl, rfl, hbody, htl⟩ := quiet_text_comment t1 hq
      rw [holds_append] at ht1
      simp only [List.length_append] at hlen
      have e : scan_comment str len c = c + 1 + body.length := by
        apply scan_eq _ str len _ _ c (Nat.le_refl _) (by omega) (by omega)
        · intro i hi1 hi2
          by_cases hic : i = c
          · rw [hic, hbc]; rfl
          · have := holds_forall str body (c + 1) (fun b => b ≠ 10) ht1.1
              (fun x hx hx10 => hbody (hx10 ▸ hx)) i (by omega) hi2
            simpa using this
        · intro hlt
          rcases htl with rfl | ⟨t', rfl, _⟩
          · simp at hlen; omega
          · simp [ht1.2.1]
      rw [body_comment str len c cfg hbc, e] at hb
      cases hb
      refine ⟨rfl, tl, ?_, ht1.2, by omega⟩
      simpa using quiet_text_blank [] tl (by simp) htl

/-! ## Dumping -/

/-- A call of `cfg_parse` on a store of String-tagged Settings leaves a store
of String-tagged Settings. -/
theorem cfg_parse_string_tags (cfg : cfg_t) (str : Nat → Nat) (len : Nat)
    (h : ∀ s ∈ cfg.settings, s.type = cfg_setting_type_string) :
    ∃ (status : Int) (cfg' : cfg_t), cfg_parse cfg str len = some (status, cfg') ∧
      ∀ s ∈ cfg'.settings, s.type = cfg_setting_type_string := by
  have key := run_rec str len
    (fun _ cfg r => (∀ s ∈ cfg.settings, s.type = cfg_setting_type_string) →
      ∀ s ∈ r.2.settings, s.type = cfg_setting_type_string)
    (fun _ h => h)
    (fun _ _ _ _ h => h)
    (by
      intro c cfg c' cfg' r hlt hb _ _ hq hcfg
      apply hq
      obtain ⟨_, _, _, h | ⟨s, hs, ht⟩⟩ := body_next str len c cfg c' c' cfg' hlt hb
      · rw [h]; exact hcfg
      · intro x hx
        rw [hs] at hx
        rcases List.mem_append.1 hx with hx | hx
        · exact hcfg x hx
        · rw [List.mem_singleton.1 hx]; exact ht)
    len 0 cfg (by omega) (Nat.zero_le _)
  obtain ⟨r, hr, hq⟩ := key
  exact ⟨r.1, r.2, by rw [cfg_parse_eq_run, hr], hq h⟩

/-- On String-tagged Settings the dump is one `identifier=value` line each. -/
theorem cfg_dump_loop_strings :
    ∀ l : List cfg_setting_t, (∀ s ∈ l, s.type = cfg_setting_type_string) →
      cfg_dump_loop l = pair_lines l := by
  intro l
  induction l with
  | nil => intro _; rfl
  | cons s rest ih =>
    intro h
    have hs := h s (List.mem_cons_self _ _)
    simp only [cfg_dump_loop, pair_lines, cfg_dump_setting, hs]
    rw [ih (fun x hx => h x (List.mem_cons_of_mem _ hx))]

/-- The dump of the Settings of `identifier=value` lines is the lines, each
ended by LF. -/
theorem cfg_dump_loop_settings_of :
    ∀ ls : List Line, ls ≠ [] → (∀ l ∈ ls, l.is_setting) →
      cfg_dump_loop (settings_of ls) = join_lines ls ++ [10] := by
  intro ls
  induction ls with
  | nil => intro h _; exact absurd rfl h
  | cons l rest ih =>
    intro _ hset
    cases l with
    | comment body => exact (hset _ (List.mem_cons_self _ _)).elim
    | setting id value =>
      cases rest with
      | nil => simp [settings_of, cfg_dump_loop, cfg_dump_setting, string_setting, join_lines,
          Line.bytes]
      | cons l' rest' =>
        have := ih (by simp) (fun x hx => hset x (List.mem_cons_of_mem _ hx))
        rw [join_lines_cons]
        simp only [settings_of, cfg_dump_loop, this]
        simp [cfg_dump_setting, string_setting, Line.bytes]

/-! ## Failure and the store -/

/-- The loop-head states from `c` on, when the pass at `c` returns. -/
theorem trace_ret (str : Nat → Nat) (len c : Nat) (cfg : cfg_t) (status : Int) (cfg' : cfg_t)
    (hl : c < len) (hb : cfg_parse_body str len c c cfg = Step.ret status cfg') :
    cfg_parse_trace_loop str len (len + 1 - c) c c cfg = [(c, c, cfg)] := by
  have e : len + 1 - c = (len - c) + 1 := by omega
  rw [e]
  simp only [cfg_parse_trace_loop, hl, if_true, hb]

/-- `strdup` of a text without NUL, followed in memory by a NUL byte and
anything else, is the text. -/
theorem strdup_terminated (s tail : List Nat) (h0 : 0 ∉ s) : strdup (s ++ 0 :: tail) = s := by
  induction s with
  | nil => simp [strdup]
  | cons x xs ih =>
    simp only [List.mem_cons, not_or] at h0
    have hx : x ≠ 0 := fun h => h0.1 h.symm
    have := ih h0.2
    simp only [strdup] at this ⊢
    simp [List.takeWhile_cons, hx, this]

/-! ## Releasing -/

theorem heap_free_live (dead : List Released) (p : Released) (h : p ∉ dead) :
    heap_free dead p = some (dead ++ [p]) := by
  simp [heap_free, h]

/-- On a heap in which only blocks of Settings below index `i` are released,
the loop from `i` on runs through and releases the blocks of the remaining
Settings, each once. -/
theorem cfg_free_loop_live :
    ∀ (l : List cfg_setting_t) (i : Nat) (dead : List Released),
      (∀ x ∈ dead, ∃ j, x.index = some j ∧ j < i) →
      cfg_free_loop l i dead = some (dead ++ setting_blocks l i) := by
  intro l
  induction l with
  | nil => intro i dead _; simp [cfg_free_loop, setting_blocks]
  | cons s rest ih =>
    intro i dead hdead
    have hnot : ∀ x : Released, (x.index = none ∨ x.index = some i) → x ∉ dead := by
      intro x hx hmem
      obtain ⟨j, h1, h2⟩ := hdead x hmem
      rcases hx with hx | hx
      · rw [hx] at h1; cases h1
      · rw [hx] at h1
        simp only [Option.some.injEq] at h1
        omega
    have h1 : Released.settings ∉ dead := hnot _ (Or.inl rfl)
    have h2 : Released.setting i ∉ dead := hnot _ (Or.inr rfl)
    have h3 : Released.string i ∉ dead := hnot _ (Or.inr rfl)
    have h4 : Released.identifier i ∉ dead := hnot _ (Or.inr rfl)
    have hnext : ∀ pre : List Released,
        (∀ x ∈ pre, x = Released.string i ∨ x = Released.identifier i ∨
          x = Released.setting i) →
        ∀ x ∈ dead ++ pre, ∃ j, x.index = some j ∧ j < i + 1 := by
      intro pre hpre x hx
      rcases List.mem_append.1 hx with hx | hx
      · obtain ⟨j, k1, k2⟩ := hdead x hx
        exact ⟨j, k1, by omega⟩
      · rcases hpre x hx with rfl | rfl | rfl <;> exact ⟨i, rfl, by omega⟩
    simp only [cfg_free_loop, setting_blocks]
    rw [if_neg (by simp [h1, h2])]
    by_cases ht : s.type = cfg_setting_type_string
    · simp only [ht, if_true]
      rw [heap_free_live dead _ h3]
      simp only
      rw [heap_free_live _ _ (by simp [h4])]
      simp only
      rw [heap_free_live _ _ (by simp [h2])]
      simp only
      rw [ih (i + 1) _ (by
        have := hnext [Released.string i, Released.identifier i, Released.setting i]
          (by simp)
        simpa using this)]
      simp
    · simp only [ht, if_false]
      rw [heap_free_live _ _ h4]
      simp only
      rw [heap_free_live _ _ (by simp [h2])]
      simp only
      rw [ih (i + 1) _ (by
        have := hnext [Released.identifier i, Released.setting i] (by simp)
        simpa using this)]
      simp

theorem setting_blocks_index :
    ∀ (l : List cfg_setting_t) (i : Nat) (x : Released), x ∈ setting_blocks l i →
      ∃ j, x.index = some j ∧ i ≤ j := by
  intro l
  induction l with
  | nil => intro i x hx; simp [setting_blocks] at hx
  | cons s rest ih =>
    intro i x hx
    simp only [setting_blocks, List.mem_append, List.mem_cons] at hx
    rcases hx with hx | hx | hx | hx
    · split at hx
      · rw [List.mem_singleton.1 hx]; exact ⟨i, rfl, Nat.le_refl _⟩
      · simp at hx
    · rw [hx]; exact ⟨i, rfl, Nat.le_refl _⟩
    · rw [hx]; exact ⟨i, rfl, Nat.le_refl _⟩
    · obtain ⟨j, h1, h2⟩ := ih (i + 1) x hx
      exact ⟨j, h1, by omega⟩

/-! ## The same bytes at another offset -/

theorem holds_getD (str : Nat → Nat) :
    ∀ (l : List Nat) (c i : Nat), holds str c l → i < l.length → str (c + i) = l.getD i 0 := by
  intro l
  induction l with
  | nil => intro c i _ hi; simp at hi
  | cons x xs ih =>
    intro c i h hi
    obtain ⟨hx, hxs⟩ := h
    cases i with
    | zero => simpa using hx
    | succ i =>
      have := ih (c + 1) i hxs (by simpa using hi)
      have e : c + (i + 1) = c + 1 + i := by omega
      rw [e, this]
      simp

theorem scan_shift (cond : Nat → Bool) (str str' : Nat → Nat) (k len : Nat)
    (hagree : ∀ i, i < len → str (i + k) = str' i) :
    ∀ n c, scan cond str (len + k) n (c + k) = scan cond str' len n c + k := by
  intro n
  induction n with
  | zero => intro c; rfl
  | succ n ih =>
    intro c
    simp only [scan]
    by_cases hc : c < len
    · have h1 : c + k < len + k := by omega
      rw [hagree c hc]
      simp only [hc, h1, decide_True, Bool.and_true]
      split
      · have e : c + k + 1 = c + 1 + k := by omega
        rw [e, ih (c + 1)]
      · rfl
    · have h1 : ¬ c + k < len + k := by omega
      simp [hc, h1]

theorem strndup_shift (str str' : Nat → Nat) (k len : Nat)
    (hagree : ∀ i, i < len → str (i + k) = str' i) :
    ∀ n p, p + n ≤ len → strndup str (p + k) n = strndup str' p n := by
  intro n
  induction n with
  | zero => intro p _; rfl
  | succ n ih =>
    intro p hp
    simp only [strndup]
    rw [hagree p (by omega)]
    have e : p + k + 1 = p + 1 + k := by omega
    rw [e, ih (p + 1) (by omega)]

/-- A loop pass over bytes that stand `k` further on in another memory gives
the same outcome, `k` further on. -/
theorem body_shift (str str' : Nat → Nat) (k len : Nat)
    (hagree : ∀ i, i < len → str (i + k) = str' i) (c : Nat) (cfg : cfg_t) (hc : c < len) :
    cfg_parse_body str (len + k) (c + k) (c + k) cfg =
      (cfg_parse_body str' len c c cfg).shift k := by
  have hb : str (c + k) = str' c := hagree c hc
  have hsc : ∀ (cond : Nat → Bool) (p : Nat),
      scan cond str (len + k) (len + k - (p + k)) (p + k) = scan cond str' len (len - p) p + k := by
    intro cond p
    have e : len + k - (p + k) = len - p := by omega
    rw [e]
    exact scan_shift cond str str' k len hagree (len - p) p
  rcases byte_cases (str' c) with h | h | h | h
  · rw [body_blank str (len + k) (c + k) cfg (hb ▸ h), body_blank str' len c cfg h]
    by_cases h2 : c + 2 ≥ len
    · rw [if_pos (by omega), if_pos h2]; rfl
    · rw [if_neg (by omega), if_neg h2]
      simp only [Step.shift]
      have e : c + k + 2 = c + 2 + k := by omega
      rw [e]
  · rw [body_newline str (len + k) (c + k) cfg (hb ▸ h), body_newline str' len c cfg h]
    by_cases h2 : c + 1 ≥ len
    · rw [if_pos (by omega), if_pos h2]; rfl
    · rw [if_neg (by omega), if_neg h2]
      simp only [Step.shift]
      have e : c + k + 1 = c + 1 + k := by omega
      rw [e]
  · rw [body_comment str (len + k) (c + k) cfg (hb ▸ h), body_comment str' len c cfg h]
    simp only [Step.shift, scan_comment, hsc]
  · rw [body_identifier str (len + k) (c + k) cfg (hb ▸ h), body_identifier str' len c cfg h]
    have e1 : scan_identifier str (len + k) (c + k) = scan_identifier str' len c + k :=
      hsc _ c
    have hle : scan_identifier str' len c ≤ len := scan_le _ str' len _ c (Nat.le_of_lt hc)
    have hge : c ≤ scan_identifier str' len c := scan_ge _ str' len _ c
    rw [e1]
    by_cases h2 : scan_identifier str' len c + 1 ≥ len
    · rw [if_pos (by omega), if_pos h2]; rfl
    · rw [if_neg (by omega), if_neg h2]
      have e2 : scan_identifier str' len c + k + 1 = scan_identifier str' len c + 1 + k := by
        omega
      have e3 : scan_value str (len + k) (scan_identifier str' len c + 1 + k) =
          scan_value str' len (scan_identifier str' len c + 1) + k := hsc _ _
      have hle2 : scan_value str' len (scan_identifier str' len c + 1) ≤ len :=
        scan_le _ str' len _ _ (by omega)
      have hge2 : scan_identifier str' len c + 1 ≤
          scan_value str' len (scan_identifier str' len c + 1) := scan_ge _ str' len _ _
      rw [e2, e3, classify_value_eq, classify_value_eq,
        hagree (scan_identifier str' len c + 1) (by omega)]
      have e4 : scan_identifier str' len c + k - (c + k) = scan_identifier str' len c - c := by
        omega
      have e5 : scan_value str' len (scan_identifier str' len c + 1) + k -
          (scan_identifier str' len c + 1 + k) =
          scan_value str' len (scan_identifier str' len c + 1) -
            (scan_identifier str' len c + 1) := by omega
      rw [e4, e5, strndup_shift str str' k len hagree _ c (by omega),
        strndup_shift str str' k len hagree _ (scan_identifier str' len c + 1) (by omega)]
      split <;> rfl

/-- The main loop over bytes that stand `k` further on in another memory
gives the same result. -/
theorem run_shift (str str' : Nat → Nat) (k len : Nat)
    (hagree : ∀ i, i < len → str (i + k) = str' i) :
    ∀ n c cfg, len - c ≤ n → c ≤ len →
      run str (len + k) (c + k) cfg = run str' len c cfg := by
  intro n
  induction n with
  | zero =>
    intro c cfg hn hc
    have : c = len := by omega
    subst this
    rw [run_end, run_end]
  | succ n ih =>
    intro c cfg hn hc
    by_cases hcl : c = len
    · subst hcl
      rw [run_end, run_end]
    · have hlt : c < len := by omega
      have hs := body_shift str str' k len hagree c cfg hlt
      cases hb : cfg_parse_body str' len c c cfg with
      | ret status cfg' =>
        rw [hb] at hs
        rw [run_ret str' len c cfg status cfg' hlt hb,
          run_ret str (len + k) (c + k) cfg status cfg' (by omega) hs]
      | next c1' c2' cfg' =>
        rw [hb] at hs
        obtain ⟨h1, h2, h3, _⟩ := body_next str' len c cfg c1' c2' cfg' hlt hb
        subst h1
        rw [run_next str' len c cfg c1' c1' cfg' hlt hb,
          run_next str (len + k) (c + k) cfg (c1' + k) (c1' + k) cfg' (by omega) hs]
        exact ih c1' cfg' (by omega) h3

/-! ## Copies of spans -/

/-- `strndup` over a span of the memory is the span cut before its first NUL. -/
theorem strndup_holds_strdup (str : Nat → Nat) :
    ∀ (l : List Nat) (p : Nat), holds str p l → strndup str p l.length = strdup l := by
  intro l
  induction l with
  | nil => intro p _; rfl
  | cons x xs ih =>
    intro p h
    obtain ⟨hx, hxs⟩ := h
    have := ih (p + 1) hxs
    simp only [strdup] at this ⊢
    simp only [List.length_cons, strndup, hx]
    by_cases h0 : x = 0
    · simp [h0]
    · simp [h0, this, List.takeWhile_cons]

theorem strdup_eq_self (l : List Nat) (h0 : 0 ∉ l) : strdup l = l := by
  unfold strdup
  rw [List.takeWhile_eq_self_iff]
  intro x hx
  simp only [bne_iff_ne, ne_eq]
  exact fun h => h0 (h ▸ hx)

theorem mem_strdup (l : List Nat) (x : Nat) (h : x ∈ strdup l) : x ∈ l :=
  (List.takeWhile_sublist _).subset h

theorem span_succ (str : Nat → Nat) (a n : Nat) :
    span str a (a + (n + 1)) = str a :: span str (a + 1) (a + 1 + n) := by
  simp only [span]
  have e1 : a + (n + 1) - a = n + 1 := by omega
  have e2 : a + 1 + n - (a + 1) = n := by omega
  rw [e1, e2, List.range_succ_eq_map]
  simp only [List.map_cons, List.map_map, Nat.add_zero, List.cons.injEq, true_and]
  apply List.map_congr_left
  intro i _
  simp only [Function.comp]
  congr 1
  omega

theorem holds_span (str : Nat → Nat) : ∀ (n a : Nat), holds str a (span str a (a + n)) := by
  intro n
  induction n with
  | zero => intro a; simp [span, holds]
  | succ n ih =>
    intro a
    rw [span_succ]
    exact ⟨rfl, ih (a + 1)⟩

/-- The span over bytes that the memory holds is those bytes. -/
theorem span_holds (str : Nat → Nat) :
    ∀ (l : List Nat) (a : Nat), holds str a l → span str a (a + l.length) = l := by
  intro l
  induction l with
  | nil => intro a _; simp [span]
  | cons x xs ih =>
    intro a h
    rw [List.length_cons, span_succ, ih (a + 1) h.2, h.1]

theorem length_span (str : Nat → Nat) (a b : Nat) : (span str a b).length = b - a := by
  simp [span]

theorem mem_span (str : Nat → Nat) (a b x : Nat) (h : x ∈ span str a b) :
    ∃ i, a ≤ i ∧ i < b ∧ x = str i := by
  simp only [span, List.mem_map, List.mem_range] at h
  obtain ⟨i, hi, rfl⟩ := h
  exact ⟨a + i, by omega, by omega, rfl⟩

/-- `strndup` of the `b - a` bytes at `a` is the span from `a` to `b`, cut
before its first NUL. -/
theorem strndup_span (str : Nat → Nat) (a b : Nat) (hab : a ≤ b) :
    strndup str a (b - a) = strdup (span str a b) := by
  have h := holds_span str (b - a) a
  have e : a + (b - a) = b := by omega
  rw [e] at h
  have := strndup_holds_strdup str (span str a b) a h
  rw [length_span] at this
  exact this

/-! ## The pass that appends a Setting -/

theorem settings_ne_append (cfg : cfg_t) (s : cfg_setting_t) :
    cfg ≠ { settings := cfg.settings ++ [s] } := by
  intro h
  have := congrArg (fun c => c.settings.length) h
  simp at this

/-- A pass from `p` that appends the Setting `s` and moves the cursors to `c'`
is a pass of the `default` branch: the identifier runs from `p` to the first
`=`, at `e`; the value runs from `e + 1` to `c'`, where the buffer ends or an
LF or `#` stands; `s` holds the two spans, each cut before its first NUL. -/
theorem pass_spans (str : Nat → Nat) (len p : Nat) (cfgp : cfg_t) (c' : Nat)
    (s : cfg_setting_t)
    (hb : cfg_parse_body str len p p cfgp =
      Step.next c' c' { settings := cfgp.settings ++ [s] }) :
    ∃ e, starts_identifier (str p) ∧ p ≤ e ∧ (∀ i, p ≤ i → i < e → str i ≠ 61) ∧ str e = 61 ∧
      e + 1 < len ∧ starts_value (str (e + 1)) ∧ e + 1 ≤ c' ∧ c' ≤ len ∧
      (∀ i, e + 1 ≤ i → i < c' → str i ≠ 10 ∧ str i ≠ 35) ∧
      (c' < len → str c' = 10 ∨ str c' = 35) ∧
      s.type = cfg_setting_type_string ∧
      s.identifier = strdup (span str p e) ∧ s.string = strdup (span str (e + 1) c') := by
  rcases byte_cases (str p) with h | h | h | h
  · rw [body_blank str len p cfgp h] at hb
    split at hb
    · cases hb
    · injection hb with _ _ h3
      exact absurd h3 (settings_ne_append cfgp s)
  · rw [body_newline str len p cfgp h] at hb
    split at hb
    · cases hb
    · injection hb with _ _ h3
      exact absurd h3 (settings_ne_append cfgp s)
  · rw [body_comment str len p cfgp h] at hb
    injection hb with _ _ h3
    exact absurd h3 (settings_ne_append cfgp s)
  · rw [body_identifier str len p cfgp h, classify_value_eq] at hb
    split at hb
    · cases hb
    · rename_i hlt
      split at hb
      · rename_i hv
        injection hb with h1 _ h3
        injection h3 with h3
        subst h1
        have hs := (List.append_cancel_left h3)
        simp only [List.cons.injEq, and_true] at hs
        have hge : p ≤ scan_identifier str len p := scan_ge _ str len _ p
        have hge2 : scan_identifier str len p + 1 ≤
            scan_value str len (scan_identifier str len p + 1) := scan_ge _ str len _ _
        have hle2 : scan_value str len (scan_identifier str len p + 1) ≤ len :=
          scan_le _ str len _ _ (by omega)
        have hstop := scan_stop (fun b => b != 61) str len (len - p) p (Nat.le_refl _)
          (by unfold scan_identifier at hlt; omega)
        refine ⟨scan_identifier str len p, h, hge, ?_, by simpa using hstop, by omega, hv,
          by omega, by omega, ?_, ?_, ?_, ?_, ?_⟩
        · intro i hi1 hi2
          have := (scan_mid (fun b => b != 61) str len (len - p) p i hi1 hi2).1
          simpa using this
        · intro i hi1 hi2
          have := (scan_mid (fun b => b != 10 && b != 35) str len _ _ i hi1 hi2).1
          simpa using this
        · intro hc'
          have := scan_stop (fun b => b != 10 && b != 35) str len
            (len - (scan_identifier str len p + 1)) (scan_identifier str len p + 1)
            (Nat.le_refl _) hc'
          have e : scan (fun b => b != 10 && b != 35) str len
              (len - (scan_identifier str len p + 1)) (scan_identifier str len p + 1) =
              scan_value str len (scan_identifier str len p + 1) := rfl
          rw [e] at this
          simp only [Bool.and_eq_false_imp, bne_iff_ne, ne_eq, bne_eq_false_iff_eq] at this
          by_cases h10 : str (scan_value str len (scan_identifier str len p + 1)) = 10
          · exact Or.inl h10
          · exact Or.inr (this h10)
        · rw [← hs]; rfl
        · rw [← hs, ← strndup_span str p _ hge]; rfl
        · rw [← hs, ← strndup_span str _ _ hge2]; rfl
      · cases hb

/-- Every call returns, and every Setting it appends is appended by one of
the loop passes the call goes through. -/
theorem cfg_parse_added (cfg0 : cfg_t) (str : Nat → Nat) (len : Nat) :
    ∃ (status : Int) (added : List cfg_setting_t),
      cfg_parse cfg0 str len = some (status, { settings := cfg0.settings ++ added }) ∧
      ∀ s ∈ added, ∃ (p : Nat) (cfgp : cfg_t) (c' : Nat),
        (p, p, cfgp) ∈ cfg_parse_trace cfg0 str len ∧ p < len ∧
        cfg_parse_body str len p p cfgp =
          Step.next c' c' { settings := cfgp.settings ++ [s] } := by
  have key := run_rec str len
    (fun c cfg r => ∃ added : List cfg_setting_t,
      r.2 = { settings := cfg.settings ++ added } ∧
      ∀ s ∈ added, ∃ (p : Nat) (cfgp : cfg_t) (c' : Nat),
        (p, p, cfgp) ∈ cfg_parse_trace_loop str len (len + 1 - c) c c cfg ∧ p < len ∧
        cfg_parse_body str len p p cfgp =
          Step.next c' c' { settings := cfgp.settings ++ [s] })
    (fun cfg => ⟨[], by simp, by simp⟩)
    (fun c cfg _ _ => ⟨[], by simp, by simp⟩)
    (by
      intro c cfg c' cfg' r hlt hb _ _ hq
      obtain ⟨added, h1, h2⟩ := hq
      have htr := trace_next str len c cfg c' cfg' hlt hb
      have hold : ∀ s ∈ added, ∃ (p : Nat) (cfgp : cfg_t) (c'' : Nat),
          (p, p, cfgp) ∈ cfg_parse_trace_loop str len (len + 1 - c) c c cfg ∧ p < len ∧
          cfg_parse_body str len p p cfgp =
            Step.next c'' c'' { settings := cfgp.settings ++ [s] } := by
        intro s hs
        obtain ⟨p, cfgp, c'', k1, k2⟩ := h2 s hs
        exact ⟨p, cfgp, c'', by rw [htr]; exact List.mem_cons_of_mem _ k1, k2⟩
      rcases body_next_cases str len c cfg c' cfg' hb with h | ⟨_, h⟩
      · subst h
        exact ⟨added, h1, hold⟩
      · refine ⟨string_setting (strndup str c (scan_identifier str len c - c))
            (strndup str (scan_identifier str len c + 1)
              (c' - (scan_identifier str len c + 1))) :: added, by rw [h1, h]; simp, ?_⟩
        intro s hs'
        rcases List.mem_cons.1 hs' with rfl | hs'
        · exact ⟨c, cfg, c', by rw [htr]; exact List.mem_cons_self _ _, hlt, by rw [hb, h]⟩
        · exact hold s hs')
    len 0 cfg0 (by omega) (Nat.zero_le _)
  obtain ⟨r, hr, added, h1, h2⟩ := key
  exact ⟨r.1, added, by rw [cfg_parse_eq_run, hr, ← h1], h2⟩

/-- The loop entered at `c ≤ len` returns, and the store it leaves extends
the store it was entered with. -/
theorem run_extends (str : Nat → Nat) (len c : Nat) (cfg : cfg_t) (hc : c ≤ len) :
    ∃ (status : Int) (added : List cfg_setting_t),
      run str len c cfg = some (status, { settings := cfg.settings ++ added }) := by
  have key := run_rec str len
    (fun _ cfg r => ∃ added : List cfg_setting_t, r.2 = { settings := cfg.settings ++ added })
    (fun cfg => ⟨[], by simp⟩)
    (fun c cfg _ _ => ⟨[], by simp⟩)
    (by
      intro c cfg c' cfg' r hlt hb _ _ hq
      obtain ⟨added, h1⟩ := hq
      rcases body_next str len c cfg c' c' cfg' hlt hb with ⟨_, _, _, h | ⟨s, hs, _⟩⟩
      · exact ⟨added, by rw [h1, h]⟩
      · exact ⟨s :: added, by rw [h1, hs]; simp⟩)
    (len - c) c cfg (Nat.le_refl _) hc
  obtain ⟨r, hr, added, h1⟩ := key
  exact ⟨r.1, added, by rw [hr, ← h1]⟩

/-- An `identifier=value` pair at `c`, where an identifier starts (`id`, the
bytes before the first `=`, may be empty), with at least one byte after the
`=` and a first value byte that the inner switch accepts: the pass appends
the Setting whose identifier is `id` cut before its first NUL. -/
theorem body_pair (str : Nat → Nat) (len c : Nat) (cfg : cfg_t) (id : List Nat)
    (hc : starts_identifier (str c)) (hideq : 61 ∉ id)
    (h : holds str c (id ++ [61])) (hel : c + id.length + 1 < len)
    (hv : starts_value (str (c + id.length + 1))) :
    cfg_parse_body str len c c cfg =
      Step.next (scan_value str len (c + id.length + 1)) (scan_value str len (c + id.length + 1))
        { settings := cfg.settings ++ [string_setting (strdup id)
          (strdup (span str (c + id.length + 1) (scan_value str len (c + id.length + 1))))] } := by
  rw [holds_append] at h
  obtain ⟨h1, h2, _⟩ := h
  have e1 : scan_identifier str len c = c + id.length := by
    apply scan_eq _ str len _ _ c (Nat.le_refl _) (by omega) (by omega)
    · intro i hi1 hi2
      have := holds_forall str id c (fun b => b ≠ 61) h1
        (fun x hx hx61 => hideq (hx61 ▸ hx)) i hi1 hi2
      simpa using this
    · intro _
      simp [h2]
  have hge : c + id.length + 1 ≤ scan_value str len (c + id.length + 1) :=
    scan_ge _ str len _ _
  rw [body_identifier str len c cfg hc, e1, if_neg (by omega), classify_value_eq, if_pos hv]
  have e3 : c + id.length - c = id.length := by omega
  rw [e3, strndup_holds_strdup str id c h1, strndup_span str _ _ hge]

/-! ## Number of passes -/

/-- From `c` on the main loop makes at most `len - c` passes. -/
theorem trace_length (str : Nat → Nat) (len : Nat) :
    ∀ n c cfg, len - c ≤ n → c ≤ len →
      (cfg_parse_trace_loop str len (len + 1 - c) c c cfg).length ≤ len - c := by
  intro n
  induction n with
  | zero =>
    intro c cfg hn hc
    have hcl : c = len := by omega
    subst hcl
    have e : c + 1 - c = 0 + 1 := by omega
    simp [e, cfg_parse_trace_loop]
  | succ n ih =>
    intro c cfg hn hc
    by_cases hcl : c = len
    · subst hcl
      have e : c + 1 - c = 0 + 1 := by omega
      simp [e, cfg_parse_trace_loop]
    · have hlt : c < len := by omega
      cases hb : cfg_parse_body str len c c cfg with
      | ret status cfg' =>
        rw [trace_ret str len c cfg status cfg' hlt hb]
        simp; omega
      | next c1' c2' cfg' =>
        obtain ⟨h1, h2, h3, _⟩ := body_next str len c cfg c1' c2' cfg' hlt hb
        subst h1
        rw [trace_next str len c cfg c1' cfg' hlt hb]
        have := ih c1' cfg' (by omega) h3
        simp only [List.length_cons]
        omega

/-! ## Indices read -/

theorem scan_reads_le (cond : Nat → Bool) (str : Nat → Nat) (len : Nat) :
    ∀ n c2, c2 ≤ len → ∀ i ∈ scan_reads cond str len n c2, i ≤ len := by
  intro n
  induction n with
  | zero =>
    intro c2 hc i hi
    simp only [scan_reads, List.mem_singleton] at hi
    omega
  | succ n ih =>
    intro c2 hc i hi
    simp only [scan_reads, List.mem_cons] at hi
    rcases hi with hi | hi
    · omega
    · split at hi
      · rename_i hcond
        simp only [Bool.and_eq_true, decide_eq_true_eq] at hcond
        exact ih (c2 + 1) hcond.2 i hi
      · simp at hi

theorem body_reads_le (str : Nat → Nat) (len c : Nat) (hc : c < len) :
    ∀ i ∈ cfg_parse_body_reads str len c c, i ≤ len := by
  intro i hi
  simp only [cfg_parse_body_reads, List.mem_cons] at hi
  rcases hi with hi | hi
  · omega
  · split at hi
    · simp at hi
    · split at hi
      · simp at hi
      · split at hi
        · exact scan_reads_le _ str len _ c (Nat.le_of_lt hc) i hi
        · rcases List.mem_append.1 hi with hi | hi
          · exact scan_reads_le _ str len _ c (Nat.le_of_lt hc) i hi
          · split at hi
            · simp at hi
            · rename_i hlt
              rcases List.mem_append.1 hi with hi | hi
              · exact scan_reads_le _ str len _ _ (by omega) i hi
              · simp only [List.mem_singleton] at hi
                omega

theorem reads_loop_le (str : Nat → Nat) (len : Nat) :
    ∀ fuel c cfg, ∀ i ∈ cfg_parse_reads_loop str len fuel c c cfg, i ≤ len := by
  intro fuel
  induction fuel with
  | zero => intro c cfg i hi; simp [cfg_parse_reads_loop] at hi
  | succ fuel ih =>
    intro c cfg i hi
    simp only [cfg_parse_reads_loop] at hi
    split at hi
    · rename_i hlt
      rcases List.mem_append.1 hi with hi | hi
      · exact body_reads_le str len c hlt i hi
      · cases hb : cfg_parse_body str len c c cfg with
        | ret status cfg' =>
          rw [hb] at hi
          simp at hi
        | next c1' c2' cfg' =>
          rw [hb] at hi
          obtain ⟨h1, _, _, _⟩ := body_next str len c cfg c1' c2' cfg' hlt hb
          subst h1
          exact ih c1' cfg' i hi
    · simp at hi

/-! ## The pairs of an input, in order -/

/-- Every call returns, and the Settings it appends are the Settings of pairs
of the buffer that lie one behind the other: each pair is taken up by a loop
pass of the call, and a pair appended later starts where an earlier one has
ended, or further on. -/
theorem cfg_parse_pairs (cfg0 : cfg_t) (str : Nat → Nat) (len : Nat) :
    ∃ (status : Int) (pairs : List (Nat × Nat × Nat)),
      cfg_parse cfg0 str len =
        some (status, { settings := cfg0.settings ++ pairs.map (setting_at str) }) ∧
      (∀ x ∈ pairs, is_pair str len x ∧ ∃ cfgp : cfg_t,
        (x.1, x.1, cfgp) ∈ cfg_parse_trace cfg0 str len ∧
        cfg_parse_body str len x.1 x.1 cfgp =
          Step.next x.2.2 x.2.2 { settings := cfgp.settings ++ [setting_at str x] }) ∧
      pairs.Pairwise (fun a b => a.2.2 ≤ b.1) := by
  have key := run_rec str len
    (fun c cfg r => ∃ pairs : List (Nat × Nat × Nat),
      r.2 = { settings := cfg.settings ++ pairs.map (setting_at str) } ∧
      (∀ x ∈ pairs, c ≤ x.1 ∧ is_pair str len x ∧ ∃ cfgp : cfg_t,
        (x.1, x.1, cfgp) ∈ cfg_parse_trace_loop str len (len + 1 - c) c c cfg ∧
        cfg_parse_body str len x.1 x.1 cfgp =
          Step.next x.2.2 x.2.2 { settings := cfgp.settings ++ [setting_at str x] }) ∧
      pairs.Pairwise (fun a b => a.2.2 ≤ b.1))
    (fun cfg => ⟨[], by simp, by simp, List.Pairwise.nil⟩)
    (fun c cfg _ _ => ⟨[], by simp, by simp, List.Pairwise.nil⟩)
    (by
      intro c cfg c' cfg' r hlt hb hcc' _ hq
      obtain ⟨pairs, h1, h2, h3⟩ := hq
      have htr := trace_next str len c cfg c' cfg' hlt hb
      have hold : ∀ x ∈ pairs, c ≤ x.1 ∧ is_pair str len x ∧ ∃ cfgp : cfg_t,
          (x.1, x.1, cfgp) ∈ cfg_parse_trace_loop str len (len + 1 - c) c c cfg ∧
          cfg_parse_body str len x.1 x.1 cfgp =
            Step.next x.2.2 x.2.2 { settings := cfgp.settings ++ [setting_at str x] } := by
        intro x hx
        obtain ⟨k0, k1, cfgp, k2, k3⟩ := h2 x hx
        exact ⟨by omega, k1, cfgp, by rw [htr]; exact List.mem_cons_of_mem _ k2, k3⟩
      rcases body_next_cases str len c cfg c' cfg' hb with h | ⟨_, h⟩
      · subst h
        exact ⟨pairs, h1, hold, h3⟩
      · rw [h] at hb
        obtain ⟨e, m0, m1, m2, m3, m4, m5, m6, m7, m8, m9, _, m11, m12⟩ :=
          pass_spans str len c cfg c' _ hb
        have hs : string_setting (strndup str c (scan_identifier str len c - c))
            (strndup str (scan_identifier str len c + 1)
              (c' - (scan_identifier str len c + 1))) = setting_at str (c, e, c') := by
          have i1 : strndup str c (scan_identifier str len c - c) = strdup (span str c e) :=
            m11
          have i2 : strndup str (scan_identifier str len c + 1)
              (c' - (scan_identifier str len c + 1)) = strdup (span str (e + 1) c') := m12
          rw [i1, i2]
          rfl
        rw [hs] at h hb
        refine ⟨(c, e, c') :: pairs, by rw [h1, h]; simp, ?_, ?_⟩
        · intro x hx
          rcases List.mem_cons.1 hx with rfl | hx
          · exact ⟨Nat.le_refl _, ⟨m0, m1, m2, m3, m4, m5, m6, m7, m8, m9⟩, cfg,
              by rw [htr]; exact List.mem_cons_self _ _, hb⟩
          · exact hold x hx
        · exact List.pairwise_cons.2 ⟨fun b hb' => (h2 b hb').1, h3⟩)
    len 0 cfg0 (by omega) (Nat.zero_le _)
  obtain ⟨r, hr, pairs, h1, h2, h3⟩ := key
  exact ⟨r.1, pairs, by rw [cfg_parse_eq_run, hr, ← h1],
    fun x hx => (h2 x hx).2, h3⟩

/-- The dump of Settings of pairs is one `identifier=value` text ended by LF
for each. -/
theorem cfg_dump_loop_pairs (str : Nat → Nat) (pairs : List (Nat × Nat × Nat)) :
    cfg_dump_loop (pairs.map (setting_at str)) = pair_lines (pairs.map (setting_at str)) := by
  apply cfg_dump_loop_strings
  intro s hs
  obtain ⟨x, _, rfl⟩ := List.mem_map.1 hs
  rfl

/-! ## Properties of the specification -/

/-- C1: for an input `id ++ "=" ++ value ++ "\n"` with `id` non-empty, free of
`=` and starting with none of space, tab, CR, LF, `#`, with `value` starting
with `-`, a digit, `"`, `f` or `t` and free of LF and `#`, and with no NUL byte
in either, `cfg_parse` on an empty store leaves exactly one Setting, with
identifier `id` and stored text `value` (the call itself returns 1, because of
the trailing newline). -/
theorem cfg_parse_single_line (str : Nat → Nat) (id value : List Nat)
    (hid : begins_with starts_identifier id) (hideq : 61 ∉ id) (hid0 : 0 ∉ id)
    (hv : begins_with starts_value value) (hvnl : 10 ∉ value) (hvhash : 35 ∉ value)
    (hv0 : 0 ∉ value)
    (h : holds str 0 (id ++ 61 :: value ++ [10])) :
    ∃ s : cfg_setting_t,
      cfg_parse { settings := [] } str (id ++ 61 :: value ++ [10]).length =
        some (1, { settings := [s] }) ∧
      s.identifier = id ∧ s.string = value := by
  refine ⟨string_setting id value, ?_, rfl, rfl⟩
  have hh : holds str 0 ((id ++ 61 :: value) ++ [10]) := by simpa using h
  rw [holds_append] at hh
  obtain ⟨h1, h2, _⟩ := hh
  have hlen : (id ++ 61 :: value ++ [10]).length = id.length + 1 + value.length + 1 := by
    simp; omega
  have hpos : 0 + (id ++ 61 :: value).length = 0 + id.length + 1 + value.length := by
    simp; omega
  rw [hpos] at h2
  rw [hlen, cfg_parse_eq_run,
    run_setting_line str _ 0 _ id value hid hideq hid0 hv hvnl hvhash hv0 h1 (by omega)
      (fun _ => Or.inl h2),
    run_last_newline str _ _ _ h2 (by omega)]
  rfl

/-- C1 at the input `port=8080\n`. -/
theorem cfg_parse_single_line_witness :
    ∃ s : cfg_setting_t,
      cfg_parse { settings := [] } (ofBytes (ascii "port=8080\n"))
          (ascii "port" ++ 61 :: ascii "8080" ++ [10]).length =
        some (1, { settings := [s] }) ∧
      s.identifier = ascii "port" ∧ s.string = ascii "8080" :=
  cfg_parse_single_line (ofBytes (ascii "port=8080\n")) (ascii "port") (ascii "8080")
    (by decide) (by decide) (by decide) (by decide) (by decide) (by decide) (by decide)
    (holds_ofBytes _)

/-- C2 (amended): for every input made of LF-separated lines, with or without
a final LF, each a comment line (`#` first, no LF) or a well-formed
`identifier=value` line, and with no NUL byte in any identifier or value,
`cfg_parse` on an empty store leaves exactly one Setting per
`identifier=value` line and none per comment line, in the order of the lines,
each holding that line's identifier and value text. -/
theorem cfg_parse_lines (str : Nat → Nat) (ls : List Line) (trailing : Bool)
    (hwf : ∀ l ∈ ls, l.well_formed) (hnul : ∀ l ∈ ls, l.nul_free)
    (h : holds str 0 (input_of ls trailing)) :
    cfg_parse { settings := [] } str (input_of ls trailing).length =
      some (if trailing then 1 else 0, { settings := settings_of ls }) := by
  rw [cfg_parse_eq_run,
    run_lines str _ trailing ls 0 { settings := [] } hwf hnul h (by simp)]
  simp

/-- C2 at the input of the claim, `a=1\nb="hi"\nc=true\n# note\nd=false\n`:
the store holds exactly the four Settings a, b, c, d with texts `1`, `"hi"`
(quotes kept), `true`, `false`, in that order. -/
theorem cfg_parse_lines_witness :
    cfg_parse { settings := [] }
        (ofBytes (ascii "a=1\nb=\"hi\"\nc=true\n# note\nd=false\n")) 33 =
      some (1, { settings :=
        [string_setting (ascii "a") (ascii "1"),
         string_setting (ascii "b") (ascii "\"hi\""),
         string_setting (ascii "c") (ascii "true"),
         string_setting (ascii "d") (ascii "false")] }) :=
  cfg_parse_lines (ofBytes (ascii "a=1\nb=\"hi\"\nc=true\n# note\nd=false\n"))
    [Line.setting (ascii "a") (ascii "1"),
     Line.setting (ascii "b") (ascii "\"hi\""),
     Line.setting (ascii "c") (ascii "true"),
     Line.comment (ascii " note"),
     Line.setting (ascii "d") (ascii "false")] true
    (by decide) (by decide) (holds_ofBytes _)

/-- C2 as stated fails when an identifier holds a NUL byte: the line
`a\0b=1` is well-formed in the sense of the claim, and the Setting stored for
it has the identifier `a`, not `a\0b`. -/
theorem cfg_parse_lines_counterexample :
    (∀ l ∈ [Line.setting [97, 0, 98] [49]], l.well_formed) ∧
    input_of [Line.setting [97, 0, 98] [49]] false = [97, 0, 98, 61, 49] ∧
    cfg_parse { settings := [] } (ofBytes [97, 0, 98, 61, 49]) 5 =
      some (0, { settings := [string_setting [97] [49]] }) ∧
    ¬ ∃ status, cfg_parse { settings := [] } (ofBytes [97, 0, 98, 61, 49]) 5 =
      some (status, { settings := settings_of [Line.setting [97, 0, 98] [49]] }) := by
  refine ⟨by decide, by decide, by decide, ?_⟩
  rintro ⟨status, h⟩
  have e : cfg_parse { settings := [] } (ofBytes [97, 0, 98, 61, 49]) 5 =
      some (0, { settings := [string_setting [97] [49]] }) := by decide
  rw [e] at h
  simp [settings_of, string_setting] at h

/-- C3 (amended): every call of `cfg_parse` returns, and every Setting it
appends carries the String type tag, whatever the first byte of its value. -/
theorem cfg_parse_type_tags (cfg : cfg_t) (str : Nat → Nat) (len : Nat) :
    ∃ (status : Int) (added : List cfg_setting_t),
      cfg_parse cfg str len = some (status, { settings := cfg.settings ++ added }) ∧
      ∀ s ∈ added, s.type = cfg_setting_type_string := by
  have key := run_rec str len
    (fun _ cfg r => ∃ added : List cfg_setting_t,
      r.2 = { settings := cfg.settings ++ added } ∧
      ∀ s ∈ added, s.type = cfg_setting_type_string)
    (fun cfg => ⟨[], by simp, by simp⟩)
    (fun c cfg _ _ => ⟨[], by simp, by simp⟩)
    (by
      intro c cfg c' cfg' r hlt hb _ _ hq
      obtain ⟨added, h1, h2⟩ := hq
      obtain ⟨_, _, _, h | ⟨s, hs, ht⟩⟩ := body_next str len c cfg c' c' cfg' hlt hb
      · subst h
        exact ⟨added, h1, h2⟩
      · refine ⟨s :: added, ?_, ?_⟩
        · rw [h1, hs]; simp
        · intro x hx
          rcases List.mem_cons.1 hx with rfl | hx
          · exact ht
          · exact h2 x hx)
    len 0 cfg (by omega) (Nat.zero_le _)
  obtain ⟨r, hr, added, h1, h2⟩ := key
  refine ⟨r.1, added, ?_, h2⟩
  rw [cfg_parse_eq_run, hr, ← h1]

/-- C3 as stated fails at `a=1\nb="hi"\nc=true`: the three Settings are tagged
String, String, String, not Integer, String, Boolean. -/
theorem cfg_parse_type_tags_counterexample :
    ∃ (status : Int) (cfg' : cfg_t),
      cfg_parse { settings := [] } (ofBytes (ascii "a=1\nb=\"hi\"\nc=true")) 17 =
        some (status, cfg') ∧
      cfg'.settings.map (fun s => s.type) =
        [cfg_setting_type_string, cfg_setting_type_string, cfg_setting_type_string] ∧
      cfg'.settings.map (fun s => s.type) ≠
        [cfg_setting_type_integer, cfg_setting_type_string, cfg_setting_type_boolean] :=
  ⟨0, { settings := [string_setting (ascii "a") (ascii "1"),
      string_setting (ascii "b") (ascii "\"hi\""),
      string_setting (ascii "c") (ascii "true")] }, by decide, by decide, by decide⟩

/-- C4: for every non-empty input whose last byte is LF, `cfg_parse` returns
failure (1), whatever precedes that newline and whatever the store holds. -/
theorem cfg_parse_trailing_newline (cfg : cfg_t) (str : Nat → Nat) (len : Nat)
    (hlen : 0 < len) (hlast : str (len - 1) = 10) :
    ∃ cfg' : cfg_t, cfg_parse cfg str len = some (1, cfg') := by
  have key := run_rec str len (fun c _ r => c < len → r.1 = 1)
    (fun _ h => absurd h (Nat.lt_irrefl _))
    (fun _ _ _ _ _ => rfl)
    (by
      intro c cfg c' cfg' r hlt hb _ _ hq _
      apply hq
      rcases byte_cases (str c) with h | h | h | h
      · rw [body_blank str len c cfg h] at hb
        split at hb
        · cases hb
        · cases hb; omega
      · rw [body_newline str len c cfg h] at hb
        split at hb
        · cases hb
        · cases hb; omega
      · rw [body_comment str len c cfg h] at hb
        cases hb
        exact scan_lt_of_last _ str len _ c rfl hlt hlast
      · rw [body_identifier str len c cfg h, classify_value_eq] at hb
        split at hb
        · cases hb
        · split at hb
          · cases hb
            exact scan_lt_of_last _ str len _ _ rfl (by omega) hlast
          · cases hb)
    len 0 cfg (by omega) (Nat.zero_le _)
  obtain ⟨r, hr, hq⟩ := key
  refine ⟨r.2, ?_⟩
  rw [cfg_parse_eq_run, hr, ← hq hlen]

/-- C4 at the input `a=1\n`. -/
theorem cfg_parse_trailing_newline_witness :
    ∃ cfg' : cfg_t,
      cfg_parse { settings := [] } (ofBytes (ascii "a=1\n")) 4 = some (1, cfg') :=
  cfg_parse_trailing_newline { settings := [] } (ofBytes (ascii "a=1\n")) 4
    (by decide) (by decide)

/-- C5: whenever the main loop is at a position where an identifier starts
(the byte at `c1` is not space, tab, CR, LF or `#`) and from there on the
buffer holds no `=` that is followed by at least one more byte, `cfg_parse`
returns failure (1) and the store it leaves is the store as it was at that
position: no Setting is appended for that identifier. -/
theorem cfg_parse_missing_equals (cfg0 : cfg_t) (str : Nat → Nat) (len c1 c2 : Nat)
    (cfg : cfg_t)
    (hreach : (c1, c2, cfg) ∈ cfg_parse_trace cfg0 str len)
    (hstart : starts_identifier (str c1))
    (hno : ∀ i, c2 ≤ i → i + 1 < len → str i ≠ 61) :
    cfg_parse cfg0 str len = some (1, cfg) := by
  obtain ⟨h1, h2, h3⟩ := cfg_parse_trace_run cfg0 str len c1 c2 cfg hreach
  subst h1
  rw [h3]
  apply run_ret str len c1 cfg 1 cfg h2
  rw [body_identifier str len c1 cfg hstart, if_pos]
  by_contra hlt
  have hlt' : scan_identifier str len c1 < len := by omega
  have hstop := scan_stop _ str len (len - c1) c1 (Nat.le_refl _) hlt'
  have hge : c1 ≤ scan_identifier str len c1 := scan_ge _ str len _ c1
  have := hno (scan_identifier str len c1) hge (by omega)
  simp only [bne_eq_false_iff_eq] at hstop
  exact this hstop

/-- C5 at the input `a=1\nkey`: the identifier `key` that starts at position 4
has no `=` after it; the call fails and the store keeps only `a=1`. -/
theorem cfg_parse_missing_equals_witness :
    cfg_parse { settings := [] } (ofBytes (ascii "a=1\nkey")) 7 =
      some (1, { settings := [string_setting (ascii "a") (ascii "1")] }) :=
  cfg_parse_missing_equals { settings := [] } (ofBytes (ascii "a=1\nkey")) 7 4 4
    { settings := [string_setting (ascii "a") (ascii "1")] }
    (by decide) (by decide)
    (by
      intro i h1 h2
      have : i = 4 ∨ i = 5 := by omega
      rcases this with rfl | rfl <;> decide)

/-- C6: whenever the main loop is at a position where an identifier starts,
the first `=` from there on is at `e` with at least one byte after it, and
that byte (the first byte of the value) is none of `-`, `0`..`9`, `"`, `f`,
`t`, `cfg_parse` returns failure (1) and the store it leaves is the store as
it was at that position: no Setting is appended for that pair. -/
theorem cfg_parse_invalid_literal (cfg0 : cfg_t) (str : Nat → Nat) (len c1 c2 e : Nat)
    (cfg : cfg_t)
    (hreach : (c1, c2, cfg) ∈ cfg_parse_trace cfg0 str len)
    (hstart : starts_identifier (str c1))
    (hce : c2 ≤ e) (hid : ∀ i, c2 ≤ i → i < e → str i ≠ 61) (heq : str e = 61)
    (hel : e + 1 < len) (hbad : ¬ starts_value (str (e + 1))) :
    cfg_parse cfg0 str len = some (1, cfg) := by
  obtain ⟨h1, h2, h3⟩ := cfg_parse_trace_run cfg0 str len c1 c2 cfg hreach
  subst h1
  rw [h3]
  apply run_ret str len c1 cfg 1 cfg h2
  have e1 : scan_identifier str len c1 = e := by
    apply scan_eq _ str len e _ c1 (Nat.le_refl _) hce (by omega)
    · intro i hi1 hi2
      simpa using hid i hi1 hi2
    · intro _
      simp [heq]
  rw [body_identifier str len c1 cfg hstart, e1, if_neg (by omega), classify_value_eq,
    if_neg hbad]

/-- C6 at the input `a=1\nb=x`: the value of `b` starts with `x`; the call
fails and the store keeps only `a=1`. -/
theorem cfg_parse_invalid_literal_witness :
    cfg_parse { settings := [] } (ofBytes (ascii "a=1\nb=x")) 7 =
      some (1, { settings := [string_setting (ascii "a") (ascii "1")] }) :=
  cfg_parse_invalid_literal { settings := [] } (ofBytes (ascii "a=1\nb=x")) 7 4 4 5
    { settings := [string_setting (ascii "a") (ascii "1")] }
    (by decide) (by decide) (by decide)
    (by
      intro i h1 h2
      have : i = 4 := by omega
      subst this
      decide)
    (by decide) (by decide) (by decide)

/-- C7: for every input that consists only of LF-separated comment lines
(`#`, then bytes other than LF) and pure-whitespace lines (only space, tab,
CR, possibly none), `cfg_parse` returns and leaves the store as it found it:
it appends zero Settings, whatever status it returns. -/
theorem cfg_parse_quiet (cfg : cfg_t) (str : Nat → Nat) (ls : List QuietLine)
    (hwf : ∀ l ∈ ls, l.well_formed) (h : holds str 0 (join_quiet ls)) :
    ∃ status : Int, cfg_parse cfg str (join_quiet ls).length = some (status, cfg) := by
  have key := run_rec str (join_quiet ls).length
    (fun c cfg r => (∃ t, quiet_text t ∧ holds str c t ∧
      (join_quiet ls).length = c + t.length) → r.2 = cfg)
    (fun _ _ => rfl)
    (fun _ _ _ _ _ => rfl)
    (by
      intro c cfg c' cfg' r _ hb _ _ hq ⟨t, h1, h2, h3⟩
      obtain ⟨k1, k2⟩ := body_quiet str _ c cfg c' cfg' t h1 h2 h3 hb
      rw [hq k2, k1])
    (join_quiet ls).length 0 cfg (by omega) (Nat.zero_le _)
  obtain ⟨r, hr, hq⟩ := key
  refine ⟨r.1, ?_⟩
  rw [cfg_parse_eq_run, hr, ← hq ⟨join_quiet ls, ⟨ls, hwf, rfl⟩, h, by simp⟩]

/-- C7 at the input `# one\n \t\n\n#two\n`, run on a store that already holds
one Setting. -/
theorem cfg_parse_quiet_witness :
    ∃ status : Int,
      cfg_parse { settings := [string_setting (ascii "a") (ascii "1")] }
          (ofBytes (ascii "# one\n \t\n\n#two\n"))
          (join_quiet [QuietLine.comment (ascii " one"), QuietLine.blank (ascii " \t"),
            QuietLine.blank [], QuietLine.comment (ascii "two"), QuietLine.blank []]).length =
        some (status, { settings := [string_setting (ascii "a") (ascii "1")] }) :=
  cfg_parse_quiet { settings := [string_setting (ascii "a") (ascii "1")] }
    (ofBytes (ascii "# one\n \t\n\n#two\n"))
    [QuietLine.comment (ascii " one"), QuietLine.blank (ascii " \t"),
      QuietLine.blank [], QuietLine.comment (ascii "two"), QuietLine.blank []]
    (by decide) (holds_ofBytes _)

/-- C8 (amended): (1) whatever the input X, `cfg_dump` applied to the store
that `cfg_parse` produced from X on an empty store prints, per Setting, exactly
one text `identifier=value` ended by LF, in the order the pairs appear in X:
the Settings are the Settings of pairs of X, each taken up by a loop pass of
the call, identifier and value being the spans of X before and after the
pair's `=`, each cut before its first NUL byte, and each later pair starts
where the pair before it has ended, or further on.  (The text of a Setting is
one line unless its identifier holds LF.)  (2) For an input X made only of
well-formed `identifier=value` lines joined by LF (no trailing LF), with no
NUL byte in any identifier or value, `cfg_parse` succeeds and the printed
text is X followed by one LF (quote characters kept). -/
theorem cfg_dump_round_trip :
    (∀ (str : Nat → Nat) (len : Nat),
      ∃ (status : Int) (cfg' : cfg_t) (pairs : List (Nat × Nat × Nat)),
        cfg_parse { settings := [] } str len = some (status, cfg') ∧
        cfg'.settings = pairs.map (setting_at str) ∧
        (∀ x ∈ pairs, is_pair str len x ∧ ∃ cfgp : cfg_t,
          (x.1, x.1, cfgp) ∈ cfg_parse_trace { settings := [] } str len ∧
          cfg_parse_body str len x.1 x.1 cfgp =
            Step.next x.2.2 x.2.2 { settings := cfgp.settings ++ [setting_at str x] }) ∧
        pairs.Pairwise (fun a b => a.2.2 ≤ b.1) ∧
        cfg_dump cfg' = pair_lines cfg'.settings) ∧
    (∀ (str : Nat → Nat) (ls : List Line), ls ≠ [] → (∀ l ∈ ls, l.is_setting) →
      (∀ l ∈ ls, l.well_formed) → (∀ l ∈ ls, l.nul_free) → holds str 0 (join_lines ls) →
      ∃ cfg' : cfg_t,
        cfg_parse { settings := [] } str (join_lines ls).length = some (0, cfg') ∧
        cfg_dump cfg' = join_lines ls ++ [10]) := by
  constructor
  · intro str len
    obtain ⟨status, pairs, h1, h2, h3⟩ := cfg_parse_pairs { settings := [] } str len
    refine ⟨status, { settings := pairs.map (setting_at str) }, pairs, ?_, rfl, h2, h3,
      cfg_dump_loop_pairs str pairs⟩
    rw [h1]
    simp
  · intro str ls hne hset hwf hnul h
    refine ⟨{ settings := settings_of ls }, ?_, cfg_dump_loop_settings_of ls hne hset⟩
    have hin : input_of ls false = join_lines ls := by simp [input_of]
    have := run_lines str (join_lines ls).length false ls 0 { settings := [] } hwf hnul
      (by rw [hin]; exact h) (by rw [hin]; simp)
    rw [cfg_parse_eq_run, this]
    simp

/-- C8 at the input `a=1\nb="hi"\nc=true`: the dump is the input followed by
one LF. -/
theorem cfg_dump_round_trip_witness :
    ∃ cfg' : cfg_t,
      cfg_parse { settings := [] } (ofBytes (ascii "a=1\nb=\"hi\"\nc=true")) 17 =
        some (0, cfg') ∧
      cfg_dump cfg' = ascii "a=1\nb=\"hi\"\nc=true\n" :=
  cfg_dump_round_trip.2 (ofBytes (ascii "a=1\nb=\"hi\"\nc=true"))
    [Line.setting (ascii "a") (ascii "1"), Line.setting (ascii "b") (ascii "\"hi\""),
      Line.setting (ascii "c") (ascii "true")]
    (by decide) (by decide) (by decide) (by decide) (holds_ofBytes _)

/-- C8 as stated fails in both parts.  When a value holds a NUL byte: for the
one-line input `a=1\0 2` (bytes 97 61 49 0 50), well-formed in the sense of
the claims, the call succeeds, the stored value is `1`, and the dump is
`a=1\n`, not the input followed by LF.  When an identifier holds LF: for the
input `x\ny=1` the store holds one Setting and the dump `x\ny=1\n` is two
lines. -/
theorem cfg_dump_round_trip_counterexample :
    (∀ l ∈ [Line.setting [97] [49, 0, 50]], l.is_setting ∧ l.well_formed) ∧
    join_lines [Line.setting [97] [49, 0, 50]] = [97, 61, 49, 0, 50] ∧
    cfg_parse { settings := [] } (ofBytes [97, 61, 49, 0, 50]) 5 =
      some (0, { settings := [string_setting [97] [49]] }) ∧
    cfg_dump { settings := [string_setting [97] [49]] } = [97, 61, 49, 10] ∧
    cfg_dump { settings := [string_setting [97] [49]] } ≠ [97, 61, 49, 0, 50] ++ [10] ∧
    cfg_parse { settings := [] } (ofBytes (ascii "x\ny=1")) 5 =
      some (0, { settings := [string_setting (ascii "x\ny") (ascii "1")] }) ∧
    cfg_dump { settings := [string_setting (ascii "x\ny") (ascii "1")] } =
      ascii "x\ny=1\n" ∧
    (cfg_dump { settings := [string_setting (ascii "x\ny") (ascii "1")] }).count 10 = 2 := by
  refine ⟨by decide, by decide, by decide, by decide, by decide, by decide, by decide,
    by decide⟩

/-- C9 (amended): called with length 0, `cfg_parse` does not enter its loop
(it passes through no loop-head state): it returns success (0) and leaves the
store as it found it. -/
theorem cfg_parse_empty (cfg : cfg_t) (str : Nat → Nat) :
    cfg_parse cfg str 0 = some (0, cfg) ∧ cfg_parse_trace cfg str 0 = [] := by
  constructor
  · simp [cfg_parse, cfg_parse_loop]
  · simp [cfg_parse_trace, cfg_parse_trace_loop]

/-- C9 as stated fails: on an empty span the status is 0, so no non-zero
status is returned. -/
theorem cfg_parse_empty_counterexample :
    cfg_parse { settings := [] } (ofBytes []) 0 = some (0, { settings := [] }) ∧
    ¬ ∃ (status : Int) (cfg' : cfg_t), status ≠ 0 ∧
      cfg_parse { settings := [] } (ofBytes []) 0 = some (status, cfg') := by
  refine ⟨by decide, ?_⟩
  rintro ⟨status, cfg', hne, h⟩
  have e : cfg_parse { settings := [] } (ofBytes []) 0 = some (0, { settings := [] }) := by
    decide
  rw [e] at h
  simp only [Option.some.injEq, Prod.mk.injEq] at h
  exact hne h.1.symm

/-- C10 (amended): every call of `cfg_parse` returns, and every Setting it
appends is appended by a loop pass that starts at a position `p` the call
passes through, at a byte where an identifier starts; the identifier of that
Setting is non-empty exactly when the byte at `p` is neither `=` nor NUL. -/
theorem cfg_parse_identifiers (cfg0 : cfg_t) (str : Nat → Nat) (len : Nat) :
    ∃ (status : Int) (added : List cfg_setting_t),
      cfg_parse cfg0 str len = some (status, { settings := cfg0.settings ++ added }) ∧
      ∀ s ∈ added, ∃ (p : Nat) (cfgp : cfg_t) (c' : Nat),
        (p, p, cfgp) ∈ cfg_parse_trace cfg0 str len ∧
        starts_identifier (str p) ∧
        cfg_parse_body str len p p cfgp =
          Step.next c' c' { settings := cfgp.settings ++ [s] } ∧
        (s.identifier ≠ [] ↔ (str p ≠ 61 ∧ str p ≠ 0)) := by
  have key := run_rec str len
    (fun c cfg r => ∃ added : List cfg_setting_t,
      r.2 = { settings := cfg.settings ++ added } ∧
      ∀ s ∈ added, ∃ (p : Nat) (cfgp : cfg_t) (c' : Nat),
        (p, p, cfgp) ∈ cfg_parse_trace_loop str len (len + 1 - c) c c cfg ∧
        starts_identifier (str p) ∧
        cfg_parse_body str len p p cfgp =
          Step.next c' c' { settings := cfgp.settings ++ [s] } ∧
        (s.identifier ≠ [] ↔ (str p ≠ 61 ∧ str p ≠ 0)))
    (fun cfg => ⟨[], by simp, by simp⟩)
    (fun c cfg _ _ => ⟨[], by simp, by simp⟩)
    (by
      intro c cfg c' cfg' r hlt hb _ _ hq
      obtain ⟨added, h1, h2⟩ := hq
      have htr := trace_next str len c cfg c' cfg' hlt hb
      have hold : ∀ s ∈ added, ∃ (p : Nat) (cfgp : cfg_t) (c'' : Nat),
          (p, p, cfgp) ∈ cfg_parse_trace_loop str len (len + 1 - c) c c cfg ∧
          starts_identifier (str p) ∧
          cfg_parse_body str len p p cfgp =
            Step.next c'' c'' { settings := cfgp.settings ++ [s] } ∧
          (s.identifier ≠ [] ↔ (str p ≠ 61 ∧ str p ≠ 0)) := by
        intro s hs
        obtain ⟨p, cfgp, c'', k1, k2⟩ := h2 s hs
        exact ⟨p, cfgp, c'', by rw [htr]; exact List.mem_cons_of_mem _ k1, k2⟩
      rcases body_next_cases str len c cfg c' cfg' hb with h | ⟨hs, h⟩
      · subst h
        exact ⟨added, h1, hold⟩
      · refine ⟨string_setting (strndup str c (scan_identifier str len c - c))
            (strndup str (scan_identifier str len c + 1)
              (c' - (scan_identifier str len c + 1))) :: added, by rw [h1, h]; simp, ?_⟩
        intro s hs'
        rcases List.mem_cons.1 hs' with rfl | hs'
        · refine ⟨c, cfg, c', by rw [htr]; exact List.mem_cons_self _ _, hs,
            by rw [hb, h], ?_⟩
          simp only [string_setting, ne_eq, strndup_eq_nil,
            scan_identifier_eq_self str len c hlt, not_or]
        · exact hold s hs')
    len 0 cfg0 (by omega) (Nat.zero_le _)
  obtain ⟨r, hr, added, h1, h2⟩ := key
  exact ⟨r.1, added, by rw [cfg_parse_eq_run, hr, ← h1], h2⟩

/-- C10 as stated fails at the input `=1`: the call succeeds and the Setting
it appends has the empty identifier. -/
theorem cfg_parse_identifiers_counterexample :
    ∃ s : cfg_setting_t,
      cfg_parse { settings := [] } (ofBytes (ascii "=1")) 2 = some (0, { settings := [s] }) ∧
      s.identifier = [] :=
  ⟨string_setting [] (ascii "1"), by decide, rfl⟩

/-- C11 (amended): whenever `cfg_parse` returns failure, the status is 1 and
the store it leaves is the store as it was at the head of the failing loop
pass: the Settings the store held before the call and those the call appended
before that pass are all retained (nothing is released), and the failing
pass itself adds none. -/
theorem cfg_parse_failure_keeps (cfg0 : cfg_t) (str : Nat → Nat) (len : Nat) (status : Int)
    (cfg' : cfg_t) (h : cfg_parse cfg0 str len = some (status, cfg')) (hfail : status ≠ 0) :
    status = 1 ∧ (∃ added, cfg'.settings = cfg0.settings ++ added) ∧
      ∃ c1 c2, (c1, c2, cfg') ∈ cfg_parse_trace cfg0 str len ∧
        cfg_parse_body str len c1 c2 cfg' = Step.ret 1 cfg' := by
  have key := run_rec str len
    (fun c cfg r => r.1 ≠ 0 →
      r.1 = 1 ∧ (∃ added, r.2.settings = cfg.settings ++ added) ∧
        ∃ c1 c2, (c1, c2, r.2) ∈ cfg_parse_trace_loop str len (len + 1 - c) c c cfg ∧
          cfg_parse_body str len c1 c2 r.2 = Step.ret 1 r.2)
    (fun _ h => absurd rfl h)
    (by
      intro c cfg hlt hb _
      refine ⟨rfl, ⟨[], by simp⟩, c, c, ?_, hb⟩
      rw [trace_ret str len c cfg 1 cfg hlt hb]
      exact List.mem_singleton.2 rfl)
    (by
      intro c cfg c' cfg' r hlt hb _ _ hq hne
      obtain ⟨k0, ⟨added, k1⟩, c1, c2, k2, k3⟩ := hq hne
      refine ⟨k0, ?_, c1, c2, ?_, k3⟩
      · rcases body_next str len c cfg c' c' cfg' hlt hb with ⟨_, _, _, h | ⟨s, hs, _⟩⟩
        · exact ⟨added, by rw [k1, h]⟩
        · exact ⟨s :: added, by rw [k1, hs]; simp⟩
      · rw [trace_next str len c cfg c' cfg' hlt hb]
        exact List.mem_cons_of_mem _ k2)
    len 0 cfg0 (by omega) (Nat.zero_le _)
  obtain ⟨r, hr, hq⟩ := key
  rw [cfg_parse_eq_run, hr] at h
  cases h
  exact hq hfail

/-- C11 (amended) at the input `a=1\nb=x`: the call fails at the value `x` and
the store keeps the Setting of `a=1`. -/
theorem cfg_parse_failure_keeps_witness :
    (1 : Int) = 1 ∧
    (∃ added, ({ settings := [string_setting (ascii "a") (ascii "1")] } : cfg_t).settings =
      ({ settings := [] } : cfg_t).settings ++ added) ∧
    ∃ c1 c2,
      (c1, c2, ({ settings := [string_setting (ascii "a") (ascii "1")] } : cfg_t)) ∈
        cfg_parse_trace { settings := [] } (ofBytes (ascii "a=1\nb=x")) 7 ∧
      cfg_parse_body (ofBytes (ascii "a=1\nb=x")) 7 c1 c2
          { settings := [string_setting (ascii "a") (ascii "1")] } =
        Step.ret 1 { settings := [string_setting (ascii "a") (ascii "1")] } :=
  cfg_parse_failure_keeps { settings := [] } (ofBytes (ascii "a=1\nb=x")) 7 1
    { settings := [string_setting (ascii "a") (ascii "1")] } (by decide) (by decide)

/-- C11 as stated fails at the input `a=1\nb=x` on an empty store: the call
returns 1 and the store's count is 1 after the call, 0 before it. -/
theorem cfg_parse_failure_keeps_counterexample :
    ∃ cfg' : cfg_t,
      cfg_parse { settings := [] } (ofBytes (ascii "a=1\nb=x")) 7 = some (1, cfg') ∧
      cfg'.settings_len = 1 ∧
      cfg'.settings_len ≠ ({ settings := [] } : cfg_t).settings_len :=
  ⟨{ settings := [string_setting (ascii "a") (ascii "1")] }, by decide, by decide, by decide⟩

/-- C12: `cfg_add_setting` returns 0; afterwards the store's count is one
greater, the given Setting is in the last cell, and every Setting stored
before is still at its index. -/
theorem cfg_add_setting_appends (cfg : cfg_t) (setting : cfg_setting_t) :
    (cfg_add_setting cfg setting).1 = 0 ∧
    (cfg_add_setting cfg setting).2.settings_len = cfg.settings_len + 1 ∧
    (cfg_add_setting cfg setting).2.settings[cfg.settings_len]? = some setting ∧
    (cfg_add_setting cfg setting).2.settings.getLast? = some setting ∧
    ∀ i, i < cfg.settings_len →
      (cfg_add_setting cfg setting).2.settings[i]? = cfg.settings[i]? := by
  rw [cfg_add_setting_eq]
  refine ⟨rfl, by simp [cfg_t.settings_len], by simp [cfg_t.settings_len], by simp, ?_⟩
  intro i hi
  simp only [cfg_t.settings_len] at hi
  simp [List.getElem?_append_left hi]

/-- C13: for spans `str` and `id` of the memory that hold no NUL byte,
`cfg_add_string_setting_with_length` returns 0 and appends exactly one Setting
to the end of the store, tagged String, whose identifier is the `id_len` bytes
of `id` and whose value is the `str_len` bytes of `str`; and
`cfg_add_string_setting`, given the same two texts NUL-terminated, has the
same effect as the length-bounded variant called with their full lengths. -/
theorem cfg_add_string_setting_with_length_appends (cfg : cfg_t) (buf : Nat → Nat)
    (str_pos id_pos : Nat) (str id tail_str tail_id : List Nat)
    (hs : holds buf str_pos str) (hi : holds buf id_pos id) (hs0 : 0 ∉ str) (hi0 : 0 ∉ id) :
    cfg_add_string_setting_with_length cfg buf str_pos str.length id_pos id.length =
      (0, { settings := cfg.settings ++
        [{ type := cfg_setting_type_string, identifier := id, string := str }] }) ∧
    cfg_add_string_setting cfg (str ++ 0 :: tail_str) (id ++ 0 :: tail_id) =
      cfg_add_string_setting_with_length cfg buf str_pos str.length id_pos id.length := by
  have e : cfg_add_string_setting_with_length cfg buf str_pos str.length id_pos id.length =
      (0, { settings := cfg.settings ++
        [{ type := cfg_setting_type_string, identifier := id, string := str }] }) := by
    rw [cfg_add_string_setting_with_length_eq, strndup_holds buf id id_pos hi hi0,
      strndup_holds buf str str_pos hs hs0]
    rfl
  refine ⟨e, ?_⟩
  rw [e]
  simp [cfg_add_string_setting, cfg_add_setting_eq, strdup_terminated, hs0, hi0]

/-- C13 at a memory that holds `port8080`: identifier `port` at offset 0,
value `8080` at offset 4. -/
theorem cfg_add_string_setting_with_length_appends_witness :
    cfg_add_string_setting_with_length { settings := [] } (ofBytes (ascii "port8080"))
        4 (ascii "8080").length 0 (ascii "port").length =
      (0, { settings := ({ settings := [] } : cfg_t).settings ++
        [{ type := cfg_setting_type_string, identifier := ascii "port",
           string := ascii "8080" }] }) ∧
    cfg_add_string_setting { settings := [] } (ascii "8080" ++ 0 :: []) (ascii "port" ++ 0 :: []) =
      cfg_add_string_setting_with_length { settings := [] } (ofBytes (ascii "port8080"))
        4 (ascii "8080").length 0 (ascii "port").length :=
  cfg_add_string_setting_with_length_appends { settings := [] } (ofBytes (ascii "port8080"))
    4 0 (ascii "8080") (ascii "port") [] [] (by decide) (by decide) (by decide) (by decide)

/-- C14 (amended): `cfg_free` does not reset the store.  One call on a store
whose memory is live runs through and releases, Setting by Setting in index
order, the string (when the Setting is tagged String), the identifier and the
Setting itself, and then the array; it writes no member of the store, so the
count after the call is the count before it, not 0.  A second `cfg_free` on
the same non-empty store is undefined behaviour: its first step reads the
array that the first call released. -/
theorem cfg_free_single_use (cfg : cfg_t) :
    cfg_free cfg [] = some (cfg.settings_len,
      setting_blocks cfg.settings 0 ++
        (if cfg.settings_len = 0 then [] else [Released.settings])) ∧
    (0 < cfg.settings_len →
      ∃ dead : List Released, cfg_free cfg [] = some (cfg.settings_len, dead) ∧
        Released.settings ∈ dead ∧ cfg_free cfg dead = none) := by
  have first : cfg_free cfg [] = some (cfg.settings_len,
      setting_blocks cfg.settings 0 ++
        (if cfg.settings_len = 0 then [] else [Released.settings])) := by
    unfold cfg_free
    rw [cfg_free_loop_live cfg.settings 0 [] (by simp)]
    simp only [List.nil_append]
    by_cases h0 : cfg.settings_len = 0
    · simp [h0]
    · simp only [h0, if_false]
      rw [heap_free_live]
      intro hmem
      obtain ⟨j, h1, _⟩ := setting_blocks_index _ 0 _ hmem
      cases h1
  refine ⟨first, ?_⟩
  intro hpos
  refine ⟨_, first, ?_, ?_⟩
  · rw [if_neg (by omega)]
    simp
  · rw [if_neg (by omega)]
    unfold cfg_free
    cases hs : cfg.settings with
    | nil => simp [cfg_t.settings_len, hs] at hpos
    | cons s rest => simp [cfg_free_loop]

/-- C14 as stated fails for the store that `cfg_parse` builds from `a=1`:
`cfg_free` releases the string, the identifier, the Setting and the array,
and the count after the call is still 1, not 0; a second call on that store
is undefined behaviour, not a call that finds nothing to release. -/
theorem cfg_free_single_use_counterexample :
    cfg_parse { settings := [] } (ofBytes (ascii "a=1")) 3 =
      some (0, { settings := [string_setting (ascii "a") (ascii "1")] }) ∧
    cfg_free { settings := [string_setting (ascii "a") (ascii "1")] } [] =
      some (1, [Released.string 0, Released.identifier 0, Released.setting 0,
        Released.settings]) ∧
    (1 : Nat) ≠ 0 ∧
    cfg_free { settings := [string_setting (ascii "a") (ascii "1")] }
      [Released.string 0, Released.identifier 0, Released.setting 0, Released.settings] =
      none := by
  refine ⟨by decide, by decide, by decide, by decide⟩

/-- C15: a whitespace byte `w` (space, tab, CR) at the start of the input
advances the scan by two bytes, whatever the second byte `b` is: when
something follows (`rest` non-empty), `cfg_parse` on `w b rest` gives the
same status and the same store as `cfg_parse` on `rest` alone; when nothing
follows (the input is `w` or `w b`), it returns failure (1) and appends
nothing. -/
theorem cfg_parse_blank_skip (cfg : cfg_t) (str str' : Nat → Nat) (w b : Nat) (rest : List Nat)
    (hw : is_blank w) (h : holds str 0 (w :: b :: rest)) (h' : holds str' 0 rest) :
    (rest ≠ [] →
      cfg_parse cfg str (w :: b :: rest).length = cfg_parse cfg str' rest.length) ∧
    cfg_parse cfg str 1 = some (1, cfg) ∧
    cfg_parse cfg str 2 = some (1, cfg) := by
  obtain ⟨h0, _, h2⟩ := h
  have hb : is_blank (str 0) := by rw [h0]; exact hw
  refine ⟨?_, ?_, ?_⟩
  · intro hne
    have hpos : 0 < rest.length := List.length_pos.2 hne
    have hlen : (w :: b :: rest).length = rest.length + 2 := by simp
    rw [hlen, cfg_parse_eq_run, cfg_parse_eq_run,
      run_next str (rest.length + 2) 0 cfg 2 2 cfg (by omega)
        (by rw [body_blank str _ 0 cfg hb, if_neg (by omega)])]
    apply run_shift str str' 2 rest.length _ rest.length 0 cfg (by omega) (Nat.zero_le _)
    intro i hi
    have e1 := holds_getD str rest (0 + 1 + 1) i h2 hi
    have e2 := holds_getD str' rest 0 i h' hi
    have e3 : i + 2 = 0 + 1 + 1 + i := by omega
    have e4 : 0 + i = i := by omega
    rw [e3, e1, ← e2, e4]
  · rw [cfg_parse_eq_run]
    apply run_ret str 1 0 cfg 1 cfg (by omega)
    rw [body_blank str _ 0 cfg hb, if_pos (by omega)]
  · rw [cfg_parse_eq_run]
    apply run_ret str 2 0 cfg 1 cfg (by omega)
    rw [body_blank str _ 0 cfg hb, if_pos (by omega)]

/-- C15 at the input ` xa=1`: the blank and the `x` after it are stepped over
together, and the call does what it does on `a=1`. -/
theorem cfg_parse_blank_skip_witness :
    (ascii "a=1" ≠ [] →
      cfg_parse { settings := [] } (ofBytes (ascii " xa=1")) (32 :: 120 :: ascii "a=1").length =
        cfg_parse { settings := [] } (ofBytes (ascii "a=1")) (ascii "a=1").length) ∧
    cfg_parse { settings := [] } (ofBytes (ascii " xa=1")) 1 = some (1, { settings := [] }) ∧
    cfg_parse { settings := [] } (ofBytes (ascii " xa=1")) 2 = some (1, { settings := [] }) :=
  cfg_parse_blank_skip { settings := [] } (ofBytes (ascii " xa=1")) (ofBytes (ascii "a=1"))
    32 120 (ascii "a=1") (by decide) (by decide) (by decide)

/-- C16 (amended): every Setting `cfg_parse` appends is appended by a loop
pass whose identifier ends at the first `=`, at `e`; the text stored for its
value is the maximal run of bytes that starts just after that `=` and ends
before the first LF, the first `#` or the end of the buffer, cut before its
first NUL byte if it holds one, with quote characters kept and no escaping;
so no stored value contains LF or `#`.  For `a="x#y"` the stored value is
`"x`. -/
theorem cfg_parse_value_span :
    (∀ (cfg0 : cfg_t) (str : Nat → Nat) (len : Nat),
      ∃ (status : Int) (added : List cfg_setting_t),
        cfg_parse cfg0 str len = some (status, { settings := cfg0.settings ++ added }) ∧
        ∀ s ∈ added, ∃ (p : Nat) (cfgp : cfg_t) (e c' : Nat),
          (p, p, cfgp) ∈ cfg_parse_trace cfg0 str len ∧
          cfg_parse_body str len p p cfgp =
            Step.next c' c' { settings := cfgp.settings ++ [s] } ∧
          p ≤ e ∧ (∀ i, p ≤ i → i < e → str i ≠ 61) ∧ str e = 61 ∧
          e + 1 ≤ c' ∧ c' ≤ len ∧
          (∀ i, e + 1 ≤ i → i < c' → str i ≠ 10 ∧ str i ≠ 35) ∧
          (c' < len → str c' = 10 ∨ str c' = 35) ∧
          s.string = strdup (span str (e + 1) c') ∧
          10 ∉ s.string ∧ 35 ∉ s.string) ∧
    cfg_parse { settings := [] } (ofBytes (ascii "a=\"x#y\"")) 7 =
      some (0, { settings := [string_setting (ascii "a") (ascii "\"x")] }) := by
  refine ⟨?_, by decide⟩
  intro cfg0 str len
  obtain ⟨status, added, h1, h2⟩ := cfg_parse_added cfg0 str len
  refine ⟨status, added, h1, ?_⟩
  intro s hs
  obtain ⟨p, cfgp, c', k1, _, k3⟩ := h2 s hs
  obtain ⟨e, _, m1, m2, m3, _, _, m6, m7, m8, m9, _, _, m12⟩ :=
    pass_spans str len p cfgp c' s k3
  refine ⟨p, cfgp, e, c', k1, k3, m1, m2, m3, m6, m7, m8, m9, m12, ?_, ?_⟩
  · intro h
    rw [m12] at h
    obtain ⟨i, i1, i2, i3⟩ := mem_span str _ _ _ (mem_strdup _ _ h)
    exact (m8 i i1 i2).1 i3.symm
  · intro h
    rw [m12] at h
    obtain ⟨i, i1, i2, i3⟩ := mem_span str _ _ _ (mem_strdup _ _ h)
    exact (m8 i i1 i2).2 i3.symm

/-- C16 as stated fails when the run holds a NUL byte: for `k="a\0b"` (bytes
107 61 34 97 0 98 34) the run after `=` is the five bytes `"a\0b"`, and the
stored value is the two bytes `"a`. -/
theorem cfg_parse_value_span_counterexample :
    cfg_parse { settings := [] } (ofBytes [107, 61, 34, 97, 0, 98, 34]) 7 =
      some (0, { settings := [string_setting [107] [34, 97]] }) ∧
    span (ofBytes [107, 61, 34, 97, 0, 98, 34]) 2 7 = [34, 97, 0, 98, 34] ∧
    (string_setting [107] [34, 97]).string ≠
      span (ofBytes [107, 61, 34, 97, 0, 98, 34]) 2 7 := by
  refine ⟨by decide, by decide, by decide⟩

/-- C17 (amended): (1) every Setting `cfg_parse` appends is appended by a loop
pass that starts at a position `p`; its identifier is the whole span from `p`
up to, not including, the first `=` at or after `p`, whatever LF, whitespace
or `#` bytes the span holds, cut before its first NUL byte if it holds one;
no stored identifier contains `=`.  (2) For every input whose first byte is
not space, tab, CR, LF or `#` and whose first `=` is followed by a byte that
starts a value, the first Setting's identifier is all bytes before that `=`
(`id`, none when the input starts with `=`), cut before the first NUL byte if
there is one. -/
theorem cfg_parse_identifier_span :
    (∀ (cfg0 : cfg_t) (str : Nat → Nat) (len : Nat),
      ∃ (status : Int) (added : List cfg_setting_t),
        cfg_parse cfg0 str len = some (status, { settings := cfg0.settings ++ added }) ∧
        ∀ s ∈ added, ∃ (p : Nat) (cfgp : cfg_t) (e c' : Nat),
          (p, p, cfgp) ∈ cfg_parse_trace cfg0 str len ∧
          cfg_parse_body str len p p cfgp =
            Step.next c' c' { settings := cfgp.settings ++ [s] } ∧
          p ≤ e ∧ (∀ i, p ≤ i → i < e → str i ≠ 61) ∧ str e = 61 ∧
          s.identifier = strdup (span str p e) ∧ 61 ∉ s.identifier) ∧
    (∀ (str : Nat → Nat) (len : Nat) (id : List Nat),
      starts_identifier (str 0) → 61 ∉ id → holds str 0 (id ++ [61]) →
      id.length + 1 < len → starts_value (str (id.length + 1)) →
      ∃ (status : Int) (s : cfg_setting_t) (more : List cfg_setting_t),
        cfg_parse { settings := [] } str len = some (status, { settings := s :: more }) ∧
        s.identifier = strdup id) := by
  constructor
  · intro cfg0 str len
    obtain ⟨status, added, h1, h2⟩ := cfg_parse_added cfg0 str len
    refine ⟨status, added, h1, ?_⟩
    intro s hs
    obtain ⟨p, cfgp, c', k1, _, k3⟩ := h2 s hs
    obtain ⟨e, _, m1, m2, m3, _, _, _, _, _, _, _, m11, _⟩ :=
      pass_spans str len p cfgp c' s k3
    refine ⟨p, cfgp, e, c', k1, k3, m1, m2, m3, m11, ?_⟩
    intro h
    rw [m11] at h
    obtain ⟨i, i1, i2, i3⟩ := mem_span str _ _ _ (mem_strdup _ _ h)
    exact m2 i i1 i2 i3.symm
  · intro str len id hid hideq h hel hv
    have hb := body_pair str len 0 { settings := [] } id hid hideq h (by omega)
      (by simpa using hv)
    have hle : scan_value str len (0 + id.length + 1) ≤ len :=
      scan_le _ str len _ _ (by omega)
    obtain ⟨status, added, hr⟩ := run_extends str len _ _ hle
    refine ⟨status, string_setting (strdup id)
      (strdup (span str (0 + id.length + 1) (scan_value str len (0 + id.length + 1)))),
      added, ?_, rfl⟩
    rw [cfg_parse_eq_run, run_next str len 0 _ _ _ _ (by omega) hb, hr]
    rfl

/-- C17 (amended) at the input `x\ny=1`: the identifier is `x\ny`, the LF
included. -/
theorem cfg_parse_identifier_span_witness :
    ∃ (status : Int) (s : cfg_setting_t) (more : List cfg_setting_t),
      cfg_parse { settings := [] } (ofBytes (ascii "x\ny=1")) 5 =
        some (status, { settings := s :: more }) ∧
      s.identifier = strdup (ascii "x\ny") :=
  cfg_parse_identifier_span.2 (ofBytes (ascii "x\ny=1")) 5 (ascii "x\ny")
    (by decide) (by decide) (by decide) (by decide) (by decide)

/-- C17 as stated fails when a NUL byte stands before the `=`: for the input
`x\0=1` (bytes 120 0 61 49) the first byte starts an identifier and the first
`=` is followed by the value `1`, and the stored identifier is `x`, not the
two bytes before the `=`. -/
theorem cfg_parse_identifier_span_counterexample :
    cfg_parse { settings := [] } (ofBytes [120, 0, 61, 49]) 4 =
      some (0, { settings := [string_setting [120] [49]] }) ∧
    (string_setting [120] [49]).identifier ≠ [120, 0] := by
  refine ⟨by decide, by decide⟩

/-- C18 (amended): for every identifier `id` that is non-empty, holds no `=`
and starts with none of space, tab, CR, LF, `#`, and every value that begins
with `f` or `t` and holds no LF, no `#` and no NUL byte, `cfg_parse` on
`id ++ "=" ++ value` returns success (0) and stores one Setting whose text is
`value` unchanged, whether or not `value` is `true` or `false`. -/
theorem cfg_parse_boolean_prefix (str : Nat → Nat) (id value : List Nat)
    (hid : begins_with starts_identifier id) (hideq : 61 ∉ id)
    (hv : begins_with starts_boolean value) (hvnl : 10 ∉ value) (hvhash : 35 ∉ value)
    (hv0 : 0 ∉ value) (h : holds str 0 (id ++ 61 :: value)) :
    ∃ s : cfg_setting_t,
      cfg_parse { settings := [] } str (id ++ 61 :: value).length =
        some (0, { settings := [s] }) ∧
      s.string = value ∧ s.identifier = strdup id := by
  have hlen : (id ++ 61 :: value).length = id.length + 1 + value.length := by
    simp; omega
  rw [holds_append] at h
  obtain ⟨h1, h2, h3⟩ := h
  have hvlen : 0 < value.length := by
    cases value with
    | nil => exact hv.elim
    | cons v vs => simp
  have hv1 : starts_value (str (0 + id.length + 1)) := by
    cases value with
    | nil => exact hv.elim
    | cons a as =>
      rw [h3.1]
      have hb : starts_boolean a := hv
      unfold starts_boolean at hb
      unfold starts_value
      omega
  have hpair : holds str 0 (id ++ [61]) := by
    rw [holds_append]
    exact ⟨h1, h2, trivial⟩
  have e2 : scan_value str (id.length + 1 + value.length) (0 + id.length + 1) =
      0 + id.length + 1 + value.length := by
    apply scan_eq _ str _ _ _ (0 + id.length + 1) (Nat.le_refl _) (by omega) (by omega)
    · intro i hi1 hi2
      have := holds_forall str value (0 + id.length + 1) (fun b => b ≠ 10 ∧ b ≠ 35) h3
        (fun x hx => ⟨fun hx10 => hvnl (hx10 ▸ hx), fun hx35 => hvhash (hx35 ▸ hx)⟩) i hi1 hi2
      simpa using this
    · intro hlt
      omega
  have hc0 : starts_identifier (str 0) := by
    cases id with
    | nil => exact hid.elim
    | cons a as => rw [h1.1]; exact hid
  have hb := body_pair str (id.length + 1 + value.length) 0 { settings := [] } id hc0 hideq
    hpair (by omega) hv1
  rw [e2, span_holds str value (0 + id.length + 1) h3, strdup_eq_self value hv0] at hb
  refine ⟨string_setting (strdup id) value, ?_, rfl, rfl⟩
  have e3 : 0 + id.length + 1 + value.length = id.length + 1 + value.length := by omega
  rw [hlen, cfg_parse_eq_run, run_next str _ 0 _ _ _ _ (by omega) hb, e3, run_end]
  rfl

/-- C18 (amended) at the input `a=foo`. -/
theorem cfg_parse_boolean_prefix_witness :
    ∃ s : cfg_setting_t,
      cfg_parse { settings := [] } (ofBytes (ascii "a=foo"))
          (ascii "a" ++ 61 :: ascii "foo").length =
        some (0, { settings := [s] }) ∧
      s.string = ascii "foo" ∧ s.identifier = strdup (ascii "a") :=
  cfg_parse_boolean_prefix (ofBytes (ascii "a=foo")) (ascii "a") (ascii "foo")
    (by decide) (by decide) (by decide) (by decide) (by decide) (by decide) (by decide)

/-- C18 as stated fails when the value holds a NUL byte: for `a=t\0x` (bytes
97 61 116 0 120) the value begins with `t` and holds no LF or `#`; the call
succeeds and the stored text is `t`, not the value. -/
theorem cfg_parse_boolean_prefix_counterexample :
    begins_with starts_boolean [116, 0, 120] ∧ 10 ∉ [116, 0, 120] ∧ 35 ∉ [116, 0, 120] ∧
    cfg_parse { settings := [] } (ofBytes [97, 61, 116, 0, 120]) 5 =
      some (0, { settings := [string_setting [97] [116]] }) ∧
    (string_setting [97] [116]).string ≠ [116, 0, 120] := by
  refine ⟨by decide, by decide, by decide, by decide, by decide⟩

/-- C19, what the code does: every index at which `cfg_parse` reads the
buffer in the two switches and the three loop conditions is at most `len`,
and index `len` itself is read.  For `a=1` with length 3 the call succeeds and
the condition of the value scanning loop reads `str[3]`; for `#` with length
1 the condition of the comment scanning loop reads `str[1]`: in both calls a
byte is read at index `len`, not strictly below it. -/
theorem cfg_parse_reads_past_end :
    (∀ (cfg : cfg_t) (str : Nat → Nat) (len : Nat), ∀ i ∈ cfg_parse_reads cfg str len,
      i ≤ len) ∧
    cfg_parse { settings := [] } (ofBytes (ascii "a=1")) 3 =
      some (0, { settings := [string_setting (ascii "a") (ascii "1")] }) ∧
    cfg_parse_reads { settings := [] } (ofBytes (ascii "a=1")) 3 = [0, 0, 1, 2, 3, 2] ∧
    cfg_parse_reads { settings := [] } (ofBytes (ascii "#")) 1 = [0, 0, 1] ∧
    ¬ (∀ i ∈ cfg_parse_reads { settings := [] } (ofBytes (ascii "a=1")) 3, i < 3) ∧
    ¬ (∀ i ∈ cfg_parse_reads { settings := [] } (ofBytes (ascii "#")) 1, i < 1) := by
  refine ⟨?_, by decide, by decide, by decide, by decide, by decide⟩
  intro cfg str len i hi
  exact reads_loop_le str len (len + 1) 0 cfg i hi

/-- C20: for every buffer and every length, `cfg_parse` returns; at the top of
every pass through the main loop the two cursors are equal and below `len`;
every pass that does not return leaves them equal again, at least one byte
further on and not past `len`; so the loop makes at most `len` passes.  More
fuel than `len + 1` changes neither the result nor the passes. -/
theorem cfg_parse_terminates (cfg : cfg_t) (str : Nat → Nat) (len : Nat) :
    (∃ r, cfg_parse cfg str len = some r) ∧
    (∀ c1 c2 cfg', (c1, c2, cfg') ∈ cfg_parse_trace cfg str len →
      c1 = c2 ∧ c2 < len ∧
      ∀ c1' c2' cfg'', cfg_parse_body str len c1 c2 cfg' = Step.next c1' c2' cfg'' →
        c1' = c2' ∧ c2 + 1 ≤ c2' ∧ c2' ≤ len) ∧
    (cfg_parse_trace cfg str len).length ≤ len ∧
    (∀ fuel, len + 1 ≤ fuel →
      cfg_parse_loop str len fuel 0 0 cfg = cfg_parse cfg str len ∧
      cfg_parse_trace_loop str len fuel 0 0 cfg = cfg_parse_trace cfg str len) := by
  refine ⟨?_, ?_, ?_, ?_⟩
  · obtain ⟨status, added, h⟩ := run_extends str len 0 cfg (Nat.zero_le _)
    exact ⟨_, h⟩
  · intro c1 c2 cfg' hmem
    obtain ⟨h1, h2, _⟩ := cfg_parse_trace_run cfg str len c1 c2 cfg' hmem
    subst h1
    refine ⟨rfl, h2, ?_⟩
    intro c1' c2' cfg'' hb
    obtain ⟨k1, k2, k3, _⟩ := body_next str len c1 cfg' c1' c2' cfg'' h2 hb
    exact ⟨k1, k2, k3⟩
  · exact trace_length str len len 0 cfg (by omega) (Nat.zero_le _)
  · intro fuel hf
    exact ⟨loop_fuel str len len 0 fuel cfg (by omega) (Nat.zero_le _) (by omega),
      trace_fuel str len len 0 fuel cfg (by omega) (Nat.zero_le _) (by omega)⟩

end Cfg
